import Mathlib

/-!
Verification of the `rpi-epd3in7` e-paper display driver (`src/rpi_epd3in7/epd.py`)
against its natural-language specification.

The driver is shallowly embedded:
* pixel grids are total functions `Nat → Nat → Nat` (PIL pixel access `pixels[x, y]`,
  mutation is functional update);
* byte buffers are `List Nat` with every entry kept below 256 (Python list of ints);
* Python `buf[i] &= ~(0x80 >> k)` on a byte-valued entry equals
  `buf[i] &&& (0xFF ^^^ (0x80 >>> k))` for `k < 8`, which is how it is written here;
* the wire protocol of the driver is a trace of events (command byte, data byte,
  bulk data, millisecond delay, console print); the SPI/GPIO peripherals are external
  capabilities, so the trace records the operations the driver issues to them.
-/

set_option maxRecDepth 10000

/-! ## Generic list-buffer helpers -/

theorem setGetD_eq (l : List Nat) (i v : Nat) (h : i < l.length) :
    (l.set i v).getD i 0 = v := by
  simp [List.getD, List.getElem?_set_self, h]

theorem setGetD_ne (l : List Nat) (i j v : Nat) (h : i ≠ j) :
    (l.set i v).getD j 0 = l.getD j 0 := by
  simp [List.getD, List.getElem?_set_ne h]

theorem getD_oob (l : List Nat) (i : Nat) (h : l.length ≤ i) : l.getD i 0 = 0 := by
  simp [List.getD, List.getElem?_eq_none, h]

theorem getD_replicate_lt (n c i : Nat) (h : i < n) :
    (List.replicate n c).getD i 0 = c := by
  simp [List.getD, List.getElem?_replicate, h]

/-! ## Bit-twiddling facts used to reason about the byte-level Python operators -/

theorem and192_split : ∀ a < 256, ∀ b < 64, (64 * a + b) &&& 192 = a % 4 * 64 := by decide

theorem and192_eq (t : Nat) (ht : t < 16384) : t &&& 192 = t / 64 % 4 * 64 := by
  have h := and192_split (t / 64) (by omega) (t % 64) (by omega)
  rwa [show 64 * (t / 64) + t % 64 = t by omega] at h

theorem maskBit_eq : ∀ j < 8, ∀ k < 8,
    (0xFF ^^^ (0x80 >>> j)) &&& (0x80 >>> k) = if j = k then 0 else 0x80 >>> k := by decide

theorem bitMask_pos : ∀ k < 8, (0 : Nat) < 0x80 >>> k := by decide

theorem and128_digit : ∀ u < 256, u &&& 128 = u / 128 % 2 * 128 := by decide
theorem and64_digit : ∀ u < 256, u &&& 64 = u / 64 % 2 * 64 := by decide
theorem and32_digit : ∀ u < 256, u &&& 32 = u / 32 % 2 * 32 := by decide
theorem and16_digit : ∀ u < 256, u &&& 16 = u / 16 % 2 * 16 := by decide
theorem and8_digit : ∀ u < 256, u &&& 8 = u / 8 % 2 * 8 := by decide
theorem and4_digit : ∀ u < 256, u &&& 4 = u / 4 % 2 * 4 := by decide
theorem and2_digit : ∀ u < 256, u &&& 2 = u / 2 % 2 * 2 := by decide
theorem and1_digit : ∀ u < 256, u &&& 1 = u % 2 := by decide

/-- Two bytes (< 256) with identical MSB-first bit values at all 8 positions are equal. -/
theorem byte_ext (u v : Nat) (hu : u < 256) (hv : v < 256)
    (h : ∀ k < 8, u &&& (0x80 >>> k) = v &&& (0x80 >>> k)) : u = v := by
  have h0 := h 0 (by omega); have h1 := h 1 (by omega)
  have h2 := h 2 (by omega); have h3 := h 3 (by omega)
  have h4 := h 4 (by omega); have h5 := h 5 (by omega)
  have h6 := h 6 (by omega); have h7 := h 7 (by omega)
  simp only [show (0x80 : Nat) >>> 0 = 128 from rfl, show (0x80 : Nat) >>> 1 = 64 from rfl,
    show (0x80 : Nat) >>> 2 = 32 from rfl, show (0x80 : Nat) >>> 3 = 16 from rfl,
    show (0x80 : Nat) >>> 4 = 8 from rfl, show (0x80 : Nat) >>> 5 = 4 from rfl,
    show (0x80 : Nat) >>> 6 = 2 from rfl, show (0x80 : Nat) >>> 7 = 1 from rfl] at h0 h1 h2 h3 h4 h5 h6 h7
  rw [and128_digit u hu, and128_digit v hv] at h0
  rw [and64_digit u hu, and64_digit v hv] at h1
  rw [and32_digit u hu, and32_digit v hv] at h2
  rw [and16_digit u hu, and16_digit v hv] at h3
  rw [and8_digit u hu, and8_digit v hv] at h4
  rw [and4_digit u hu, and4_digit v hv] at h5
  rw [and2_digit u hu, and2_digit v hv] at h6
  rw [and1_digit u hu, and1_digit v hv] at h7
  omega

/-! ## Iteration order of the Python nested loops -/

/-- Pairs `(x, y)` produced by `for y in range O: for x in range I`. -/
def pairsYX (O I : Nat) : List (Nat × Nat) :=
  (List.range O).flatMap fun y => (List.range I).map fun x => (x, y)

/-- Pairs `(x, y)` produced by `for x in range O: for y in range I`. -/
def pairsXY (O I : Nat) : List (Nat × Nat) :=
  (List.range O).flatMap fun x => (List.range I).map fun y => (x, y)

theorem mem_pairsYX (O I : Nat) (p : Nat × Nat) :
    p ∈ pairsYX O I ↔ p.1 < I ∧ p.2 < O := by
  rcases p with ⟨x, y⟩
  simp only [pairsYX, List.mem_flatMap, List.mem_map, List.mem_range, Prod.mk.injEq]
  constructor
  · rintro ⟨b, hb, a, ha, rfl, rfl⟩; exact ⟨ha, hb⟩
  · rintro ⟨hx, hy⟩; exact ⟨y, hy, x, hx, rfl, rfl⟩

theorem mem_pairsXY (O I : Nat) (p : Nat × Nat) :
    p ∈ pairsXY O I ↔ p.1 < O ∧ p.2 < I := by
  rcases p with ⟨x, y⟩
  simp only [pairsXY, List.mem_flatMap, List.mem_map, List.mem_range, Prod.mk.injEq]
  constructor
  · rintro ⟨a, ha, b, hb, rfl, rfl⟩; exact ⟨ha, hb⟩
  · rintro ⟨hx, hy⟩; exact ⟨x, hx, y, hy, rfl, rfl⟩

/-! ## OneBit (`MODE_1GRAY`) pixel encoder, from `_get_frame_buffer_for_size_1Gray` -/

/-- `buf[idx] &= ~(0x80 >> k)` on a list of byte values (`k < 8` at every call site). -/
def clearBit (buf : List Nat) (idx k : Nat) : List Nat :=
  buf.set idx (buf.getD idx 0 &&& (0xFF ^^^ (0x80 >>> k)))

/-- Exact-orientation branch (`imwidth == self.width and imheight == self.height`). -/
def encode1GrayExact (w h : Nat) (pix : Nat → Nat → Nat) : List Nat :=
  (pairsYX h w).foldl
    (fun buf p =>
      if pix p.1 p.2 = 0 then clearBit buf ((p.1 + p.2 * w) / 8) (p.1 % 8) else buf)
    (List.replicate (w / 8 * h) 0xFF)

/-- Transposed-orientation branch (`imwidth == self.height and imheight == self.width`):
`newx = y`, `newy = self.height - x - 1`, bit `0x80 >> (y % 8)`. -/
def encode1GrayTransposed (w h : Nat) (pix : Nat → Nat → Nat) : List Nat :=
  (pairsYX w h).foldl
    (fun buf p =>
      if pix p.1 p.2 = 0 then clearBit buf ((p.2 + (h - p.1 - 1) * w) / 8) (p.2 % 8) else buf)
    (List.replicate (w / 8 * h) 0xFF)

/-- Full `_get_frame_buffer_for_size_1Gray`: dimension dispatch; on a mismatch the
all-`0xFF` initial buffer is returned untouched (the source has no error branch). -/
def get_frame_buffer_for_size_1Gray (w h imw imh : Nat) (pix : Nat → Nat → Nat) : List Nat :=
  if imw = w ∧ imh = h then encode1GrayExact w h pix
  else if imw = h ∧ imh = w then encode1GrayTransposed w h pix
  else List.replicate (w / 8 * h) 0xFF

/-! ### Characterization of the 1-bit folds -/

theorem clearBit_getD_and (buf : List Nat) (B k idx j : Nat) (hk : k < 8) (hj : j < 8) :
    (clearBit buf idx j).getD B 0 &&& (0x80 >>> k)
      = if idx = B ∧ j = k then 0 else buf.getD B 0 &&& (0x80 >>> k) := by
  by_cases hidx : idx = B
  · subst hidx
    by_cases hB : idx < buf.length
    · rw [clearBit, setGetD_eq _ _ _ hB, Nat.and_assoc, maskBit_eq j hj k hk]
      by_cases hjk : j = k
      · simp [hjk]
      · simp [hjk]
    · have hset : clearBit buf idx j = buf := by
        rw [clearBit]; exact List.set_eq_of_length_le (by omega)
      rw [hset, getD_oob buf idx (by omega), Nat.zero_and]
      by_cases hjk : j = k <;> simp [hjk]
  · rw [clearBit, setGetD_ne _ _ _ _ hidx]
    simp [hidx]

theorem foldl_clear_length (L : List (Nat × Nat)) (f : Nat × Nat → Nat × Nat)
    (cnd : Nat × Nat → Prop) [DecidablePred cnd] (buf : List Nat) :
    (L.foldl (fun b p => if cnd p then clearBit b (f p).1 (f p).2 else b) buf).length
      = buf.length := by
  induction L generalizing buf with
  | nil => rfl
  | cons p L ih =>
      rw [List.foldl_cons, ih]
      by_cases hc : cnd p <;> simp [hc, clearBit]

theorem foldl_clear_getD_and (L : List (Nat × Nat)) (f : Nat × Nat → Nat × Nat)
    (cnd : Nat × Nat → Prop) [DecidablePred cnd] (buf : List Nat) (B k : Nat) (hk : k < 8)
    (hf : ∀ p ∈ L, (f p).2 < 8) :
    (L.foldl (fun b p => if cnd p then clearBit b (f p).1 (f p).2 else b) buf).getD B 0
        &&& (0x80 >>> k)
      = if ∃ p ∈ L, cnd p ∧ (f p).1 = B ∧ (f p).2 = k then 0
        else buf.getD B 0 &&& (0x80 >>> k) := by
  induction L generalizing buf with
  | nil => simp
  | cons q L ih =>
      rw [List.foldl_cons]
      rw [ih _ (fun p hp => hf p (List.mem_cons_of_mem q hp))]
      by_cases hc : cnd q
      · rw [if_pos hc, clearBit_getD_and _ _ _ _ _ hk (hf q (List.mem_cons_self q L))]
        by_cases hm : (f q).1 = B ∧ (f q).2 = k
        · have hex : ∃ p ∈ q :: L, cnd p ∧ (f p).1 = B ∧ (f p).2 = k :=
            ⟨q, List.mem_cons_self q L, hc, hm⟩
          rw [if_pos hex, if_pos hm]
          by_cases hL : ∃ p ∈ L, cnd p ∧ (f p).1 = B ∧ (f p).2 = k <;> simp [hL]
        · rw [if_neg hm]
          have hiff : (∃ p ∈ q :: L, cnd p ∧ (f p).1 = B ∧ (f p).2 = k)
              ↔ (∃ p ∈ L, cnd p ∧ (f p).1 = B ∧ (f p).2 = k) := by
            constructor
            · rintro ⟨p, hp, hcp, hfp⟩
              rcases List.mem_cons.1 hp with rfl | hp'
              · exact absurd hfp hm
              · exact ⟨p, hp', hcp, hfp⟩
            · rintro ⟨p, hp, hcp, hfp⟩; exact ⟨p, List.mem_cons_of_mem q hp, hcp, hfp⟩
          exact if_congr hiff.symm rfl rfl
      · rw [if_neg hc]
        have hiff : (∃ p ∈ q :: L, cnd p ∧ (f p).1 = B ∧ (f p).2 = k)
            ↔ (∃ p ∈ L, cnd p ∧ (f p).1 = B ∧ (f p).2 = k) := by
          constructor
          · rintro ⟨p, hp, hcp, hfp⟩
            rcases List.mem_cons.1 hp with rfl | hp'
            · exact absurd hcp hc
            · exact ⟨p, hp', hcp, hfp⟩
          · rintro ⟨p, hp, hcp, hfp⟩; exact ⟨p, List.mem_cons_of_mem q hp, hcp, hfp⟩
        exact if_congr hiff.symm rfl rfl

theorem foldl_clear_getD_lt (L : List (Nat × Nat)) (f : Nat × Nat → Nat × Nat)
    (cnd : Nat × Nat → Prop) [DecidablePred cnd] (buf : List Nat)
    (hbuf : ∀ i, buf.getD i 0 < 256) :
    ∀ i, (L.foldl (fun b p => if cnd p then clearBit b (f p).1 (f p).2 else b) buf).getD i 0
      < 256 := by
  induction L generalizing buf with
  | nil => exact hbuf
  | cons q L ih =>
      rw [List.foldl_cons]
      refine ih _ ?_
      intro i
      by_cases hc : cnd q
      · rw [if_pos hc]
        by_cases hi : (f q).1 = i
        · subst hi
          by_cases hlen : (f q).1 < buf.length
          · rw [clearBit, setGetD_eq _ _ _ hlen]
            have hmask : (0xFF : Nat) ^^^ (0x80 >>> (f q).2) < 256 := by
              have h1 : (0x80 : Nat) >>> (f q).2 ≤ 128 := by
                rw [Nat.shiftRight_eq_div_pow]; exact Nat.div_le_self _ _
              have h2 : (0xFF : Nat) < 2 ^ 8 := by norm_num
              have h3 : (0x80 : Nat) >>> (f q).2 < 2 ^ 8 := by omega
              calc (0xFF : Nat) ^^^ (0x80 >>> (f q).2) < 2 ^ 8 := Nat.xor_lt_two_pow h2 h3
                _ = 256 := by norm_num
            calc buf.getD (f q).1 0 &&& (0xFF ^^^ (0x80 >>> (f q).2))
                ≤ 0xFF ^^^ (0x80 >>> (f q).2) := Nat.and_le_right
              _ < 256 := hmask
          · rw [clearBit, List.set_eq_of_length_le (by omega)]
            exact hbuf _
        · rw [clearBit, setGetD_ne _ _ _ _ hi]
          exact hbuf i
      · rw [if_neg hc]; exact hbuf i

theorem mulIdx_lt (y k d h : Nat) (hy : y < h) (hk : k < d) : y * d + k < d * h := by
  calc y * d + k < y * d + d := by omega
    _ = (y + 1) * d := by ring
    _ ≤ h * d := Nat.mul_le_mul_right d hy
    _ = d * h := Nat.mul_comm h d

theorem ff_and_mask : ∀ k < 8, (0xFF : Nat) &&& (0x80 >>> k) = 0x80 >>> k := by decide

/-- Bit-level behaviour of the exact-orientation 1-bit encoder: the MSB-first bit
`x % 8` of byte `(x + y*w)/8` is cleared exactly when the pixel `(x, y)` is black. -/
theorem encode1GrayExact_bit (w h x y : Nat) (pix : Nat → Nat → Nat)
    (hw : 8 ∣ w) (hx : x < w) (hy : y < h) :
    (encode1GrayExact w h pix).getD ((x + y * w) / 8) 0 &&& (0x80 >>> (x % 8))
      = if pix x y = 0 then 0 else 0x80 >>> (x % 8) := by
  obtain ⟨c, rfl⟩ := hw
  have hchar := foldl_clear_getD_and (pairsYX h (8 * c))
    (fun p => ((p.1 + p.2 * (8 * c)) / 8, p.1 % 8))
    (fun p => pix p.1 p.2 = 0)
    (List.replicate (8 * c / 8 * h) 0xFF)
    ((x + y * (8 * c)) / 8) (x % 8) (by omega)
    (fun p _ => by show p.1 % 8 < 8; omega)
  have hgoal : (encode1GrayExact (8 * c) h pix).getD ((x + y * (8 * c)) / 8) 0
        &&& (0x80 >>> (x % 8))
      = if ∃ p ∈ pairsYX h (8 * c), pix p.1 p.2 = 0
            ∧ (p.1 + p.2 * (8 * c)) / 8 = (x + y * (8 * c)) / 8 ∧ p.1 % 8 = x % 8 then 0
        else (List.replicate (8 * c / 8 * h) 0xFF).getD ((x + y * (8 * c)) / 8) 0
            &&& (0x80 >>> (x % 8)) := hchar
  rw [hgoal]
  have hex : (∃ p ∈ pairsYX h (8 * c), pix p.1 p.2 = 0
      ∧ (p.1 + p.2 * (8 * c)) / 8 = (x + y * (8 * c)) / 8 ∧ p.1 % 8 = x % 8)
      ↔ pix x y = 0 := by
    constructor
    · rintro ⟨p, hp, hc0, hdiv, hmod⟩
      rw [mem_pairsYX] at hp
      obtain ⟨hp1, hp2⟩ := hp
      have hr1 : p.2 * (8 * c) = 8 * (p.2 * c) := by ring
      have hr2 : y * (8 * c) = 8 * (y * c) := by ring
      have hm1 : (p.1 + p.2 * (8 * c)) % 8 = p.1 % 8 := by omega
      have hm2 : (x + y * (8 * c)) % 8 = x % 8 := by omega
      have heq : p.1 + p.2 * (8 * c) = x + y * (8 * c) := by omega
      have hmw : (p.1 + p.2 * (8 * c)) % (8 * c) = p.1 % (8 * c) :=
        Nat.add_mul_mod_self_right p.1 p.2 (8 * c)
      have hxw : (x + y * (8 * c)) % (8 * c) = x % (8 * c) :=
        Nat.add_mul_mod_self_right x y (8 * c)
      have hp1x : p.1 = x := by
        have := hmw.symm.trans (heq ▸ hxw)
        rwa [Nat.mod_eq_of_lt hp1, Nat.mod_eq_of_lt hx] at this
      have hp2y : p.2 = y := by
        have hmul : p.2 * (8 * c) = y * (8 * c) := by omega
        have hpos : 0 < 8 * c := by omega
        exact Nat.eq_of_mul_eq_mul_right hpos hmul
      rwa [hp1x, hp2y] at hc0
    · intro h0
      exact ⟨(x, y), (mem_pairsYX h (8 * c) (x, y)).2 ⟨hx, hy⟩, h0, rfl, rfl⟩
  rw [if_congr hex rfl rfl]
  have hin : (x + y * (8 * c)) / 8 < 8 * c / 8 * h := by
    have hr : y * (8 * c) = 8 * (y * c) := by ring
    have h1 : (x + y * (8 * c)) / 8 = y * c + x / 8 := by omega
    have h2 : 8 * c / 8 = c := by omega
    rw [h1, h2]
    exact mulIdx_lt y (x / 8) c h hy (by omega)
  rw [getD_replicate_lt _ _ _ hin, ff_and_mask (x % 8) (by omega)]

/-- Bit-level behaviour of the transposed-orientation 1-bit encoder, indexed by
panel coordinates `(a, b)`: the bit for panel position `(a, b)` reflects input
pixel `(h - 1 - b, a)`. -/
theorem encode1GrayTransposed_bit (w h a b : Nat) (pix : Nat → Nat → Nat)
    (hw : 8 ∣ w) (ha : a < w) (hb : b < h) :
    (encode1GrayTransposed w h pix).getD ((a + b * w) / 8) 0 &&& (0x80 >>> (a % 8))
      = if pix (h - 1 - b) a = 0 then 0 else 0x80 >>> (a % 8) := by
  obtain ⟨c, rfl⟩ := hw
  have hchar := foldl_clear_getD_and (pairsYX (8 * c) h)
    (fun p => ((p.2 + (h - p.1 - 1) * (8 * c)) / 8, p.2 % 8))
    (fun p => pix p.1 p.2 = 0)
    (List.replicate (8 * c / 8 * h) 0xFF)
    ((a + b * (8 * c)) / 8) (a % 8) (by omega)
    (fun p _ => by show p.2 % 8 < 8; omega)
  have hgoal : (encode1GrayTransposed (8 * c) h pix).getD ((a + b * (8 * c)) / 8) 0
        &&& (0x80 >>> (a % 8))
      = if ∃ p ∈ pairsYX (8 * c) h, pix p.1 p.2 = 0
            ∧ (p.2 + (h - p.1 - 1) * (8 * c)) / 8 = (a + b * (8 * c)) / 8
            ∧ p.2 % 8 = a % 8 then 0
        else (List.replicate (8 * c / 8 * h) 0xFF).getD ((a + b * (8 * c)) / 8) 0
            &&& (0x80 >>> (a % 8)) := hchar
  rw [hgoal]
  have hex : (∃ p ∈ pairsYX (8 * c) h, pix p.1 p.2 = 0
      ∧ (p.2 + (h - p.1 - 1) * (8 * c)) / 8 = (a + b * (8 * c)) / 8
      ∧ p.2 % 8 = a % 8)
      ↔ pix (h - 1 - b) a = 0 := by
    constructor
    · rintro ⟨p, hp, hc0, hdiv, hmod⟩
      rw [mem_pairsYX] at hp
      obtain ⟨hp1, hp2⟩ := hp
      have hr1 : (h - p.1 - 1) * (8 * c) = 8 * ((h - p.1 - 1) * c) := by ring
      have hr2 : b * (8 * c) = 8 * (b * c) := by ring
      have hm1 : (p.2 + (h - p.1 - 1) * (8 * c)) % 8 = p.2 % 8 := by omega
      have hm2 : (a + b * (8 * c)) % 8 = a % 8 := by omega
      have heq : p.2 + (h - p.1 - 1) * (8 * c) = a + b * (8 * c) := by omega
      have hmw : (p.2 + (h - p.1 - 1) * (8 * c)) % (8 * c) = p.2 % (8 * c) :=
        Nat.add_mul_mod_self_right p.2 (h - p.1 - 1) (8 * c)
      have hxw : (a + b * (8 * c)) % (8 * c) = a % (8 * c) :=
        Nat.add_mul_mod_self_right a b (8 * c)
      have hp2a : p.2 = a := by
        have := hmw.symm.trans (heq ▸ hxw)
        rwa [Nat.mod_eq_of_lt hp2, Nat.mod_eq_of_lt ha] at this
      have hp1b : p.1 = h - 1 - b := by
        have hmul : (h - p.1 - 1) * (8 * c) = b * (8 * c) := by omega
        have hpos : 0 < 8 * c := by omega
        have := Nat.eq_of_mul_eq_mul_right hpos hmul
        omega
      rwa [hp2a, hp1b] at hc0
    · intro h0
      refine ⟨(h - 1 - b, a), (mem_pairsYX (8 * c) h (h - 1 - b, a)).2 ⟨by omega, ha⟩, h0,
        ?_, rfl⟩
      simp only
      have hbb : h - (h - 1 - b) - 1 = b := by omega
      rw [hbb]
  rw [if_congr hex rfl rfl]
  have hin : (a + b * (8 * c)) / 8 < 8 * c / 8 * h := by
    have hr : b * (8 * c) = 8 * (b * c) := by ring
    have h1 : (a + b * (8 * c)) / 8 = b * c + a / 8 := by omega
    have h2 : 8 * c / 8 = c := by omega
    rw [h1, h2]
    exact mulIdx_lt b (a / 8) c h hb (by omega)
  rw [getD_replicate_lt _ _ _ hin, ff_and_mask (a % 8) (by omega)]

theorem encode1GrayExact_length (w h : Nat) (pix : Nat → Nat → Nat) :
    (encode1GrayExact w h pix).length = w / 8 * h := by
  have h1 : (encode1GrayExact w h pix).length
      = (List.replicate (w / 8 * h) (0xFF : Nat)).length :=
    foldl_clear_length (pairsYX h w) (fun p => ((p.1 + p.2 * w) / 8, p.1 % 8))
      (fun p => pix p.1 p.2 = 0) _
  rw [h1, List.length_replicate]

theorem encode1GrayTransposed_length (w h : Nat) (pix : Nat → Nat → Nat) :
    (encode1GrayTransposed w h pix).length = w / 8 * h := by
  have h1 : (encode1GrayTransposed w h pix).length
      = (List.replicate (w / 8 * h) (0xFF : Nat)).length :=
    foldl_clear_length (pairsYX w h) (fun p => ((p.2 + (h - p.1 - 1) * w) / 8, p.2 % 8))
      (fun p => pix p.1 p.2 = 0) _
  rw [h1, List.length_replicate]

theorem replicate_getD_lt_256 (n : Nat) : ∀ i, (List.replicate n (0xFF : Nat)).getD i 0 < 256 := by
  intro i
  by_cases hi : i < n
  · rw [getD_replicate_lt _ _ _ hi]; omega
  · rw [getD_oob _ _ (by simp; omega)]; omega

theorem encode1GrayExact_getD_lt (w h : Nat) (pix : Nat → Nat → Nat) :
    ∀ i, (encode1GrayExact w h pix).getD i 0 < 256 :=
  foldl_clear_getD_lt (pairsYX h w) (fun p => ((p.1 + p.2 * w) / 8, p.1 % 8))
    (fun p => pix p.1 p.2 = 0) _ (replicate_getD_lt_256 _)

theorem encode1GrayTransposed_getD_lt (w h : Nat) (pix : Nat → Nat → Nat) :
    ∀ i, (encode1GrayTransposed w h pix).getD i 0 < 256 :=
  foldl_clear_getD_lt (pairsYX w h) (fun p => ((p.2 + (h - p.1 - 1) * w) / 8, p.2 % 8))
    (fun p => pix p.1 p.2 = 0) _ (replicate_getD_lt_256 _)

/-- The transposed 1-bit branch agrees byte-for-byte with running the exact branch
on the 90-degree-rotated grid `(u, v) ↦ pix (h - 1 - v) u`. -/
theorem transposed1Gray_eq_rotExact (w h : Nat) (pix : Nat → Nat → Nat) (hw : 8 ∣ w) :
    encode1GrayTransposed w h pix = encode1GrayExact w h (fun u v => pix (h - 1 - v) u) := by
  apply List.ext_getElem
  · rw [encode1GrayTransposed_length, encode1GrayExact_length]
  · intro i h1 h2
    have hlen : i < w / 8 * h := by rwa [encode1GrayTransposed_length] at h1
    rw [← List.getD_eq_getElem _ 0 h1, ← List.getD_eq_getElem _ 0 h2]
    apply byte_ext _ _ (encode1GrayTransposed_getD_lt w h pix i)
      (encode1GrayExact_getD_lt w h _ i)
    intro k hk
    obtain ⟨c, hc⟩ := hw
    have hcph : 0 < c ∧ 0 < h := by
      have h8 : w / 8 = c := by omega
      rw [h8] at hlen
      rcases Nat.eq_zero_or_pos c with hc0 | hcpos
      · rw [hc0] at hlen; omega
      rcases Nat.eq_zero_or_pos h with hh0 | hhpos
      · rw [hh0] at hlen; omega
      exact ⟨hcpos, hhpos⟩
    have hwpos : 0 < w := by omega
    have hsum : (i * 8 + k) % w + (i * 8 + k) / w * w = i * 8 + k :=
      Nat.mod_add_div' (i * 8 + k) w
    have ha : (i * 8 + k) % w < w := Nat.mod_lt _ hwpos
    have hb : (i * 8 + k) / w < h := by
      apply Nat.div_lt_of_lt_mul
      have hhw1 : w * h = 8 * (c * h) := by rw [hc]; ring
      have hhw2 : h * w = 8 * (c * h) := by rw [hc]; ring
      have h8 : w / 8 = c := by omega
      rw [h8] at hlen
      omega
    have hdiv8 : ((i * 8 + k) % w + (i * 8 + k) / w * w) / 8 = i := by
      rw [hsum]; omega
    have hmod8 : (i * 8 + k) % w % 8 = k := by
      rw [Nat.mod_mod_of_dvd _ ⟨c, hc⟩]
      omega
    have hA := encode1GrayTransposed_bit w h ((i * 8 + k) % w) ((i * 8 + k) / w) pix
      ⟨c, hc⟩ ha hb
    have hB := encode1GrayExact_bit w h ((i * 8 + k) % w) ((i * 8 + k) / w)
      (fun u v => pix (h - 1 - v) u) ⟨c, hc⟩ ha hb
    rw [hdiv8, hmod8] at hA hB
    exact hA.trans hB.symm

/-- Concrete grid used by witnesses: black only at pixel `(3, 1)`. -/
def wPix : Nat → Nat → Nat := fun x y => if x = 3 ∧ y = 1 then 0 else 255

/-- Claim C1: for a OneBit input grid whose dimensions exactly match the panel
geometry `(w, h)` (panel widths are multiples of 8, e.g. the 280×480 panel), the
encoder yields a buffer of length `ceil(w/8)*h`, and MSB-first bit `(x + y*w) % 8`
of byte `(x + y*w) / 8` is 0 exactly when source pixel `(x, y)` is black (0). -/
theorem C1_oneBit_exact_encoding (w h x y : Nat) (pix : Nat → Nat → Nat)
    (hw : 8 ∣ w) (hx : x < w) (hy : y < h) :
    (get_frame_buffer_for_size_1Gray w h w h pix).length = (w + 7) / 8 * h ∧
    ((get_frame_buffer_for_size_1Gray w h w h pix).getD ((x + y * w) / 8) 0
        &&& (0x80 >>> ((x + y * w) % 8)) = 0
      ↔ pix x y = 0) := by
  have hdisp : get_frame_buffer_for_size_1Gray w h w h pix = encode1GrayExact w h pix := by
    rw [get_frame_buffer_for_size_1Gray, if_pos ⟨rfl, rfl⟩]
  rw [hdisp]
  obtain ⟨c, hc⟩ := hw
  constructor
  · rw [encode1GrayExact_length]
    have h1 : w / 8 = c := by omega
    have h2 : (w + 7) / 8 = c := by omega
    rw [h1, h2]
  · have hr : y * w = 8 * (y * c) := by rw [hc]; ring
    have hm : (x + y * w) % 8 = x % 8 := by omega
    rw [hm, encode1GrayExact_bit w h x y pix ⟨c, hc⟩ hx hy]
    by_cases h0 : pix x y = 0
    · simp [h0]
    · simp only [if_neg h0]
      constructor
      · intro hcon
        have := bitMask_pos (x % 8) (by omega)
        omega
      · intro hcon; exact absurd hcon h0

theorem C1_oneBit_exact_encoding_witness :
    (8 : Nat) ∣ 8 ∧ (3 : Nat) < 8 ∧ (1 : Nat) < 2 ∧
    ((get_frame_buffer_for_size_1Gray 8 2 8 2 wPix).length = (8 + 7) / 8 * 2 ∧
     ((get_frame_buffer_for_size_1Gray 8 2 8 2 wPix).getD ((3 + 1 * 8) / 8) 0
        &&& (0x80 >>> ((3 + 1 * 8) % 8)) = 0
      ↔ wPix 3 1 = 0)) :=
  ⟨⟨1, rfl⟩, by omega, by omega,
    C1_oneBit_exact_encoding 8 2 3 1 wPix ⟨1, rfl⟩ (by omega) (by omega)⟩

/-! ## FourLevel (`MODE_4GRAY`) pixel encoder, from `_get_frame_buffer_for_size_4Gray`.

The PIL pixel store is a total function updated in place; the Python loop counter
`i` is threaded through the fold state. -/

/-- `pixels[x, y] = v` on a functional pixel store. -/
def update2 (g : Nat → Nat → Nat) (x y v : Nat) : Nat → Nat → Nat :=
  fun u w => if u = x ∧ w = y then v else g u w

/-- The in-place gray-level remap `0xC0 → 0x80`, `0x80 → 0x40` as a value map. -/
def canonPix (c : Nat) : Nat := if c = 0xC0 then 0x80 else if c = 0x80 then 0x40 else c

/-- One loop iteration's mutation of the pixel store:
`if pixels[x,y] == 0xC0: pixels[x,y] = 0x80 elif pixels[x,y] == 0x80: pixels[x,y] = 0x40`. -/
def canonStep (g : Nat → Nat → Nat) (x y : Nat) : Nat → Nat → Nat :=
  if g x y = 0xC0 then update2 g x y 0x80
  else if g x y = 0x80 then update2 g x y 0x40
  else g

/-- `(p0 & 0xc0) | (p1 & 0xc0) >> 2 | (p2 & 0xc0) >> 4 | (p3 & 0xc0) >> 6`. -/
def pack4 (p0 p1 p2 p3 : Nat) : Nat :=
  (p0 &&& 0xC0) ||| ((p1 &&& 0xC0) >>> 2) ||| ((p2 &&& 0xC0) >>> 4) ||| ((p3 &&& 0xC0) >>> 6)

/-- Loop body of the exact-orientation 4-gray branch; state is `(buf, pixels, i)`. -/
def step4E (w : Nat) (st : List Nat × (Nat → Nat → Nat) × Nat) (p : Nat × Nat) :
    List Nat × (Nat → Nat → Nat) × Nat :=
  let g := canonStep st.2.1 p.1 p.2
  let i := st.2.2 + 1
  if i % 4 = 0 then
    (st.1.set ((p.1 + p.2 * w) / 4)
      (pack4 (g (p.1 - 3) p.2) (g (p.1 - 2) p.2) (g (p.1 - 1) p.2) (g p.1 p.2)), g, i)
  else (st.1, g, i)

def encode4GrayExact (w h : Nat) (g : Nat → Nat → Nat) : List Nat × (Nat → Nat → Nat) :=
  let r := (pairsYX h w).foldl (step4E w) (List.replicate (w / 4 * h) 0xFF, g, 0)
  (r.1, r.2.1)

/-- Loop body of the transposed-orientation 4-gray branch (`x` outer over `imwidth = h`,
`y` inner over `imheight = w`; `newx = y`, `newy = imwidth - x - 1 = h - x - 1`). -/
def step4T (w h : Nat) (st : List Nat × (Nat → Nat → Nat) × Nat) (p : Nat × Nat) :
    List Nat × (Nat → Nat → Nat) × Nat :=
  let g := canonStep st.2.1 p.1 p.2
  let i := st.2.2 + 1
  if i % 4 = 0 then
    (st.1.set ((p.2 + (h - p.1 - 1) * w) / 4)
      (pack4 (g p.1 (p.2 - 3)) (g p.1 (p.2 - 2)) (g p.1 (p.2 - 1)) (g p.1 p.2)), g, i)
  else (st.1, g, i)

def encode4GrayTransposed (w h : Nat) (g : Nat → Nat → Nat) : List Nat × (Nat → Nat → Nat) :=
  let r := (pairsXY h w).foldl (step4T w h) (List.replicate (w / 4 * h) 0xFF, g, 0)
  (r.1, r.2.1)

/-- Full `_get_frame_buffer_for_size_4Gray`: dimension dispatch; on a mismatch the
all-`0xFF` initial buffer is returned untouched and the pixel store is not mutated. -/
def get_frame_buffer_for_size_4Gray (w h imw imh : Nat) (g : Nat → Nat → Nat) :
    List Nat × (Nat → Nat → Nat) :=
  if imw = w ∧ imh = h then encode4GrayExact w h g
  else if imw = h ∧ imh = w then encode4GrayTransposed w h g
  else (List.replicate (w / 4 * h) 0xFF, g)

/-! ### Pixel-store evolution of the 4-gray folds -/

theorem canonStep_apply (g : Nat → Nat → Nat) (x y u v : Nat) :
    canonStep g x y u v = if u = x ∧ v = y then canonPix (g x y) else g u v := by
  simp only [canonStep, canonPix]
  by_cases h1 : g x y = 0xC0
  · simp [h1, update2]
  · by_cases h2 : g x y = 0x80
    · simp [h1, h2, update2]
    · simp only [if_neg h1, if_neg h2]
      by_cases h3 : u = x ∧ v = y
      · obtain ⟨rfl, rfl⟩ := h3; simp
      · simp [h3]

theorem canonStep_apply_ne (g : Nat → Nat → Nat) (x y u v : Nat) (h : ¬(u = x ∧ v = y)) :
    canonStep g x y u v = g u v := by
  rw [canonStep_apply, if_neg h]

theorem canonStep_apply_eq (g : Nat → Nat → Nat) (x y : Nat) :
    canonStep g x y x y = canonPix (g x y) := by
  rw [canonStep_apply, if_pos ⟨rfl, rfl⟩]

/-- The pixel-store component of the exact-branch fold ignores the buffer writes. -/
theorem fold_step4E_grid (w : Nat) (L : List (Nat × Nat)) :
    ∀ (buf : List Nat) (g : Nat → Nat → Nat) (i : Nat),
    ((L.foldl (step4E w) (buf, g, i)).2.1)
      = L.foldl (fun G p => canonStep G p.1 p.2) g := by
  induction L with
  | nil => intro buf g i; rfl
  | cons p L ih =>
      intro buf g i
      rw [List.foldl_cons, List.foldl_cons]
      by_cases hi : (i + 1) % 4 = 0
      · rw [show step4E w (buf, g, i) p
            = ((buf.set ((p.1 + p.2 * w) / 4)
                (pack4 (canonStep g p.1 p.2 (p.1 - 3) p.2) (canonStep g p.1 p.2 (p.1 - 2) p.2)
                  (canonStep g p.1 p.2 (p.1 - 1) p.2) (canonStep g p.1 p.2 p.1 p.2)),
                canonStep g p.1 p.2, i + 1) : List Nat × (Nat → Nat → Nat) × Nat)
            from by simp [step4E, hi]]
        exact ih _ _ _
      · rw [show step4E w (buf, g, i) p
            = ((buf, canonStep g p.1 p.2, i + 1) : List Nat × (Nat → Nat → Nat) × Nat)
            from by simp [step4E, hi]]
        exact ih _ _ _

theorem fold_step4T_grid (w h : Nat) (L : List (Nat × Nat)) :
    ∀ (buf : List Nat) (g : Nat → Nat → Nat) (i : Nat),
    ((L.foldl (step4T w h) (buf, g, i)).2.1)
      = L.foldl (fun G p => canonStep G p.1 p.2) g := by
  induction L with
  | nil => intro buf g i; rfl
  | cons p L ih =>
      intro buf g i
      rw [List.foldl_cons, List.foldl_cons]
      by_cases hi : (i + 1) % 4 = 0
      · rw [show step4T w h (buf, g, i) p
            = ((buf.set ((p.2 + (h - p.1 - 1) * w) / 4)
                (pack4 (canonStep g p.1 p.2 p.1 (p.2 - 3)) (canonStep g p.1 p.2 p.1 (p.2 - 2))
                  (canonStep g p.1 p.2 p.1 (p.2 - 1)) (canonStep g p.1 p.2 p.1 p.2)),
                canonStep g p.1 p.2, i + 1) : List Nat × (Nat → Nat → Nat) × Nat)
            from by simp [step4T, hi]]
        exact ih _ _ _
      · rw [show step4T w h (buf, g, i) p
            = ((buf, canonStep g p.1 p.2, i + 1) : List Nat × (Nat → Nat → Nat) × Nat)
            from by simp [step4T, hi]]
        exact ih _ _ _

theorem fold_step4E_count (w : Nat) (L : List (Nat × Nat)) :
    ∀ (buf : List Nat) (g : Nat → Nat → Nat) (i : Nat),
    (L.foldl (step4E w) (buf, g, i)).2.2 = i + L.length := by
  induction L with
  | nil => intro buf g i; rfl
  | cons p L ih =>
      intro buf g i
      rw [List.foldl_cons]
      by_cases hi : (i + 1) % 4 = 0
      · rw [show step4E w (buf, g, i) p
            = ((buf.set ((p.1 + p.2 * w) / 4)
                (pack4 (canonStep g p.1 p.2 (p.1 - 3) p.2) (canonStep g p.1 p.2 (p.1 - 2) p.2)
                  (canonStep g p.1 p.2 (p.1 - 1) p.2) (canonStep g p.1 p.2 p.1 p.2)),
                canonStep g p.1 p.2, i + 1) : List Nat × (Nat → Nat → Nat) × Nat)
            from by simp [step4E, hi]]
        rw [ih _ _ _, List.length_cons]; omega
      · rw [show step4E w (buf, g, i) p
            = ((buf, canonStep g p.1 p.2, i + 1) : List Nat × (Nat → Nat → Nat) × Nat)
            from by simp [step4E, hi]]
        rw [ih _ _ _, List.length_cons]; omega

theorem fold_step4T_count (w h : Nat) (L : List (Nat × Nat)) :
    ∀ (buf : List Nat) (g : Nat → Nat → Nat) (i : Nat),
    (L.foldl (step4T w h) (buf, g, i)).2.2 = i + L.length := by
  induction L with
  | nil => intro buf g i; rfl
  | cons p L ih =>
      intro buf g i
      rw [List.foldl_cons]
      by_cases hi : (i + 1) % 4 = 0
      · rw [show step4T w h (buf, g, i) p
            = ((buf.set ((p.2 + (h - p.1 - 1) * w) / 4)
                (pack4 (canonStep g p.1 p.2 p.1 (p.2 - 3)) (canonStep g p.1 p.2 p.1 (p.2 - 2))
                  (canonStep g p.1 p.2 p.1 (p.2 - 1)) (canonStep g p.1 p.2 p.1 p.2)),
                canonStep g p.1 p.2, i + 1) : List Nat × (Nat → Nat → Nat) × Nat)
            from by simp [step4T, hi]]
        rw [ih _ _ _, List.length_cons]; omega
      · rw [show step4T w h (buf, g, i) p
            = ((buf, canonStep g p.1 p.2, i + 1) : List Nat × (Nat → Nat → Nat) × Nat)
            from by simp [step4T, hi]]
        rw [ih _ _ _, List.length_cons]; omega

/-- Evaluating a chain of `canonStep` mutations over a duplicate-free visit list:
each visited cell is remapped exactly once. -/
theorem fold_canonStep_eval (L : List (Nat × Nat)) (g : Nat → Nat → Nat) (u v : Nat) :
    L.Nodup →
    (L.foldl (fun G p => canonStep G p.1 p.2) g) u v
      = if (u, v) ∈ L then canonPix (g u v) else g u v := by
  induction L generalizing g with
  | nil => intro _; simp
  | cons p L ih =>
      intro hnd
      rw [List.nodup_cons] at hnd
      rw [List.foldl_cons, ih _ hnd.2]
      by_cases hp : (u, v) = p
      · rw [if_neg (hp ▸ hnd.1), if_pos (by rw [hp]; exact List.mem_cons_self p L)]
        obtain ⟨x, y⟩ := p
        cases hp
        exact canonStep_apply_eq g u v
      · rw [canonStep_apply_ne g p.1 p.2 u v
          (by rintro ⟨h1, h2⟩; exact hp (Prod.ext h1 h2))]
        have hmem : ((u, v) ∈ p :: L) ↔ ((u, v) ∈ L) := by
          constructor
          · intro hm
            rcases List.mem_cons.1 hm with h | h
            · exact absurd h hp
            · exact h
          · exact fun hm => List.mem_cons_of_mem p hm
        exact (if_congr hmem rfl rfl).symm

theorem range_add_four (n : Nat) : List.range (n + 4) = List.range n ++ [n, n + 1, n + 2, n + 3] := by
  rw [show n + 4 = (((n + 1) + 1) + 1) + 1 from by omega]
  rw [List.range_succ, List.range_succ, List.range_succ, List.range_succ]
  simp [List.append_assoc]

theorem rowMap_nodup (n y : Nat) : (((List.range n).map fun x => (x, y))).Nodup :=
  List.Nodup.map (fun a b hab => congrArg Prod.fst hab) (List.nodup_range n)

theorem mem_rowMap (n y : Nat) (u v : Nat) :
    ((u, v) ∈ (List.range n).map fun x => (x, y)) ↔ u < n ∧ v = y := by
  simp only [List.mem_map, List.mem_range, Prod.mk.injEq]
  constructor
  · rintro ⟨a, ha, rfl, rfl⟩; exact ⟨ha, rfl⟩
  · rintro ⟨hu, rfl⟩; exact ⟨u, hu, rfl, rfl⟩

/-- Packed byte produced for group `k` of row `y` of the exact-orientation 4-gray
branch: top-2-bits of the four canonicalized samples, MSB-first. -/
def packE (g : Nat → Nat → Nat) (k y : Nat) : Nat :=
  pack4 (canonPix (g (4 * k) y)) (canonPix (g (4 * k + 1) y))
    (canonPix (g (4 * k + 2) y)) (canonPix (g (4 * k + 3) y))

theorem row4E (w h y : Nat) (G : Nat → Nat → Nat) (hw4 : 4 ∣ w) :
    ∀ (c : Nat) (buf : List Nat) (i₀ : Nat), 4 ∣ i₀ → 4 * c ≤ w → buf.length = w / 4 * h →
      y < h →
    ((((List.range (4 * c)).map fun x => (x, y)).foldl (step4E w) (buf, G, i₀)).1.length
        = buf.length) ∧
    ∀ m, (((List.range (4 * c)).map fun x => (x, y)).foldl (step4E w) (buf, G, i₀)).1.getD m 0
      = if y * (w / 4) ≤ m ∧ m < y * (w / 4) + c then packE G (m - y * (w / 4)) y
        else buf.getD m 0 := by
  intro c
  induction c with
  | zero =>
      intro buf i₀ _ _ _ _
      refine ⟨rfl, fun m => ?_⟩
      rw [if_neg (by omega)]
      rfl
  | succ c ih =>
      intro buf i₀ hi4 hcw hlen hy
      have hsplit : (List.range (4 * (c + 1))).map (fun x => (x, y))
          = ((List.range (4 * c)).map fun x => (x, y))
            ++ [(4 * c, y), (4 * c + 1, y), (4 * c + 2, y), (4 * c + 3, y)] := by
        rw [show 4 * (c + 1) = 4 * c + 4 from by ring, range_add_four, List.map_append]
        rfl
      rw [hsplit, List.foldl_append]
      obtain ⟨ihlen, ihgetD⟩ := ih buf i₀ hi4 (by omega) hlen hy
      set R := ((List.range (4 * c)).map fun x => (x, y)).foldl (step4E w) (buf, G, i₀) with hR
      have hgrid : R.2.1 = ((List.range (4 * c)).map fun x => (x, y)).foldl
          (fun Gg p => canonStep Gg p.1 p.2) G := fold_step4E_grid w _ buf G i₀
      have hcount : R.2.2 = i₀ + 4 * c := by
        rw [hR, fold_step4E_count w _ buf G i₀]
        simp
      have hg0 : R.2.1 (4 * c) y = G (4 * c) y := by
        rw [hgrid, fold_canonStep_eval _ _ _ _ (rowMap_nodup _ _),
          if_neg (by rw [mem_rowMap]; omega)]
      have hg1 : R.2.1 (4 * c + 1) y = G (4 * c + 1) y := by
        rw [hgrid, fold_canonStep_eval _ _ _ _ (rowMap_nodup _ _),
          if_neg (by rw [mem_rowMap]; omega)]
      have hg2 : R.2.1 (4 * c + 2) y = G (4 * c + 2) y := by
        rw [hgrid, fold_canonStep_eval _ _ _ _ (rowMap_nodup _ _),
          if_neg (by rw [mem_rowMap]; omega)]
      have hg3 : R.2.1 (4 * c + 3) y = G (4 * c + 3) y := by
        rw [hgrid, fold_canonStep_eval _ _ _ _ (rowMap_nodup _ _),
          if_neg (by rw [mem_rowMap]; omega)]
      have hs1 : step4E w R (4 * c, y)
          = (R.1, canonStep R.2.1 (4 * c) y, R.2.2 + 1) := by
        simp only [step4E]
        rw [hcount, if_neg (by omega)]
      have hs2 : step4E w (R.1, canonStep R.2.1 (4 * c) y, R.2.2 + 1) (4 * c + 1, y)
          = (R.1, canonStep (canonStep R.2.1 (4 * c) y) (4 * c + 1) y, R.2.2 + 1 + 1) := by
        simp only [step4E]
        rw [hcount, if_neg (by omega)]
      have hs3 : step4E w (R.1, canonStep (canonStep R.2.1 (4 * c) y) (4 * c + 1) y,
            R.2.2 + 1 + 1) (4 * c + 2, y)
          = (R.1, canonStep (canonStep (canonStep R.2.1 (4 * c) y) (4 * c + 1) y) (4 * c + 2) y,
            R.2.2 + 1 + 1 + 1) := by
        simp only [step4E]
        rw [hcount, if_neg (by omega)]
      have hs4 : step4E w (R.1,
            canonStep (canonStep (canonStep R.2.1 (4 * c) y) (4 * c + 1) y) (4 * c + 2) y,
            R.2.2 + 1 + 1 + 1) (4 * c + 3, y)
          = (R.1.set ((4 * c + 3 + y * w) / 4)
              (pack4
                (canonStep (canonStep (canonStep (canonStep R.2.1 (4 * c) y) (4 * c + 1) y)
                  (4 * c + 2) y) (4 * c + 3) y (4 * c + 3 - 3) y)
                (canonStep (canonStep (canonStep (canonStep R.2.1 (4 * c) y) (4 * c + 1) y)
                  (4 * c + 2) y) (4 * c + 3) y (4 * c + 3 - 2) y)
                (canonStep (canonStep (canonStep (canonStep R.2.1 (4 * c) y) (4 * c + 1) y)
                  (4 * c + 2) y) (4 * c + 3) y (4 * c + 3 - 1) y)
                (canonStep (canonStep (canonStep (canonStep R.2.1 (4 * c) y) (4 * c + 1) y)
                  (4 * c + 2) y) (4 * c + 3) y (4 * c + 3) y)),
            canonStep (canonStep (canonStep (canonStep R.2.1 (4 * c) y) (4 * c + 1) y)
              (4 * c + 2) y) (4 * c + 3) y,
            R.2.2 + 1 + 1 + 1 + 1) := by
        simp only [step4E]
        rw [hcount, if_pos (by omega)]
      have hv0 : canonStep (canonStep (canonStep (canonStep R.2.1 (4 * c) y) (4 * c + 1) y)
          (4 * c + 2) y) (4 * c + 3) y (4 * c + 3 - 3) y = canonPix (G (4 * c) y) := by
        rw [show 4 * c + 3 - 3 = 4 * c from by omega,
          canonStep_apply_ne _ _ _ _ _ (by omega), canonStep_apply_ne _ _ _ _ _ (by omega),
          canonStep_apply_ne _ _ _ _ _ (by omega), canonStep_apply_eq, hg0]
      have hv1 : canonStep (canonStep (canonStep (canonStep R.2.1 (4 * c) y) (4 * c + 1) y)
          (4 * c + 2) y) (4 * c + 3) y (4 * c + 3 - 2) y = canonPix (G (4 * c + 1) y) := by
        rw [show 4 * c + 3 - 2 = 4 * c + 1 from by omega,
          canonStep_apply_ne _ _ _ _ _ (by omega), canonStep_apply_ne _ _ _ _ _ (by omega),
          canonStep_apply_eq]
        rw [canonStep_apply_ne _ _ _ _ _ (by omega), hg1]
      have hv2 : canonStep (canonStep (canonStep (canonStep R.2.1 (4 * c) y) (4 * c + 1) y)
          (4 * c + 2) y) (4 * c + 3) y (4 * c + 3 - 1) y = canonPix (G (4 * c + 2) y) := by
        rw [show 4 * c + 3 - 1 = 4 * c + 2 from by omega,
          canonStep_apply_ne _ _ _ _ _ (by omega), canonStep_apply_eq]
        rw [canonStep_apply_ne _ _ _ _ _ (by omega), canonStep_apply_ne _ _ _ _ _ (by omega),
          hg2]
      have hv3 : canonStep (canonStep (canonStep (canonStep R.2.1 (4 * c) y) (4 * c + 1) y)
          (4 * c + 2) y) (4 * c + 3) y (4 * c + 3) y = canonPix (G (4 * c + 3) y) := by
        rw [canonStep_apply_eq]
        rw [canonStep_apply_ne _ _ _ _ _ (by omega), canonStep_apply_ne _ _ _ _ _ (by omega),
          canonStep_apply_ne _ _ _ _ _ (by omega), hg3]
      obtain ⟨d, hd⟩ := hw4
      have hd4 : w / 4 = d := by omega
      have hyw : y * w = 4 * (y * (w / 4)) := by rw [hd4, hd]; ring
      have hidx : (4 * c + 3 + y * w) / 4 = y * (w / 4) + c := by omega
      simp only [List.foldl_cons, List.foldl_nil]
      rw [hs1, hs2, hs3, hs4, hv0, hv1, hv2, hv3, hidx]
      constructor
      · simp only [List.length_set]
        exact ihlen
      · intro m
        by_cases hm : m = y * (w / 4) + c
        · subst hm
          rw [setGetD_eq _ _ _ (by
            rw [ihlen, hlen, hd4]
            have := mulIdx_lt y c d h hy (by omega)
            omega)]
          rw [if_pos (by omega)]
          rw [show y * (w / 4) + c - y * (w / 4) = c from by omega]
          rfl
        · rw [setGetD_ne _ _ _ _ (by omega), ihgetD m]
          exact if_congr (by omega) rfl rfl

theorem pairsYX_succ (O I : Nat) :
    pairsYX (O + 1) I = pairsYX O I ++ ((List.range I).map fun x => (x, O)) := by
  rw [pairsYX, pairsYX, show List.range (O + 1) = List.range O ++ [O] from List.range_succ O]
  rw [List.flatMap_append]
  simp

theorem pairsXY_succ (O I : Nat) :
    pairsXY (O + 1) I = pairsXY O I ++ ((List.range I).map fun y => (O, y)) := by
  rw [pairsXY, pairsXY, show List.range (O + 1) = List.range O ++ [O] from List.range_succ O]
  rw [List.flatMap_append]
  simp

theorem pairsYX_length (O I : Nat) : (pairsYX O I).length = O * I := by
  induction O with
  | zero => simp [pairsYX]
  | succ O ih =>
      rw [pairsYX_succ, List.length_append, ih, List.length_map, List.length_range]
      ring

theorem pairsXY_length (O I : Nat) : (pairsXY O I).length = O * I := by
  induction O with
  | zero => simp [pairsXY]
  | succ O ih =>
      rw [pairsXY_succ, List.length_append, ih, List.length_map, List.length_range]
      ring

theorem colMap_nodup (n x : Nat) : (((List.range n).map fun y => (x, y))).Nodup :=
  List.Nodup.map (fun a b hab => congrArg Prod.snd hab) (List.nodup_range n)

theorem mem_colMap (n x : Nat) (u v : Nat) :
    ((u, v) ∈ (List.range n).map fun y => (x, y)) ↔ v < n ∧ u = x := by
  simp only [List.mem_map, List.mem_range, Prod.mk.injEq]
  constructor
  · rintro ⟨a, ha, rfl, rfl⟩; exact ⟨ha, rfl⟩
  · rintro ⟨hv, rfl⟩; exact ⟨v, hv, rfl, rfl⟩

theorem pairsYX_nodup (O I : Nat) : (pairsYX O I).Nodup := by
  induction O with
  | zero => simp [pairsYX]
  | succ O ih =>
      rw [pairsYX_succ]
      refine List.Nodup.append ih (rowMap_nodup I O) ?_
      intro p hp1 hp2
      rcases p with ⟨u, v⟩
      rw [mem_pairsYX] at hp1
      rw [mem_rowMap] at hp2
      simp only at hp1
      omega

theorem pairsXY_nodup (O I : Nat) : (pairsXY O I).Nodup := by
  induction O with
  | zero => simp [pairsXY]
  | succ O ih =>
      rw [pairsXY_succ]
      refine List.Nodup.append ih (colMap_nodup I O) ?_
      intro p hp1 hp2
      rcases p with ⟨u, v⟩
      rw [mem_pairsXY] at hp1
      rw [mem_colMap] at hp2
      simp only at hp1
      omega

theorem rows4E (w h : Nat) (g : Nat → Nat → Nat) (hw4 : 4 ∣ w) :
    ∀ r, r ≤ h →
    (((pairsYX r w).foldl (step4E w) (List.replicate (w / 4 * h) 0xFF, g, 0)).1.length
        = w / 4 * h) ∧
    (∀ y k, y < r → k < w / 4 →
      ((pairsYX r w).foldl (step4E w) (List.replicate (w / 4 * h) 0xFF, g, 0)).1.getD
          (y * (w / 4) + k) 0 = packE g k y) ∧
    (∀ m, r * (w / 4) ≤ m →
      ((pairsYX r w).foldl (step4E w) (List.replicate (w / 4 * h) 0xFF, g, 0)).1.getD m 0
        = (List.replicate (w / 4 * h) (0xFF : Nat)).getD m 0) := by
  intro r
  induction r with
  | zero =>
      intro _
      refine ⟨by simp [pairsYX], fun y k hy _ => absurd hy (by omega), fun m _ => by
        simp [pairsYX]⟩
  | succ r ihh =>
      intro hr1
      obtain ⟨ihlen, ihbytes, ihrest⟩ := ihh (by omega)
      rw [pairsYX_succ, List.foldl_append]
      set R := (pairsYX r w).foldl (step4E w) (List.replicate (w / 4 * h) 0xFF, g, 0) with hR
      have hgrid : R.2.1 = (pairsYX r w).foldl (fun G p => canonStep G p.1 p.2) g := by
        rw [hR]; exact fold_step4E_grid w _ _ g 0
      have hcount : R.2.2 = r * w := by
        rw [hR, fold_step4E_count w _ _ g 0, pairsYX_length]
        omega
      obtain ⟨d, hd⟩ := hw4
      have hd4 : w / 4 = d := by omega
      have hi4 : 4 ∣ R.2.2 := ⟨r * d, by rw [hcount, hd]; ring⟩
      obtain ⟨rowlen, rowget⟩ := row4E w h r R.2.1 ⟨d, hd⟩ (w / 4) R.1 R.2.2 hi4
        (by omega) (by rw [ihlen]) (by omega)
      have hw44 : 4 * (w / 4) = w := by omega
      rw [hw44] at rowlen rowget
      have hpack : ∀ k, packE R.2.1 k r = packE g k r := by
        intro k
        simp only [packE]
        have e0 : R.2.1 (4 * k) r = g (4 * k) r := by
          rw [hgrid, fold_canonStep_eval _ g _ _ (pairsYX_nodup r w),
            if_neg (by rw [mem_pairsYX]; simp)]
        have e1 : R.2.1 (4 * k + 1) r = g (4 * k + 1) r := by
          rw [hgrid, fold_canonStep_eval _ g _ _ (pairsYX_nodup r w),
            if_neg (by rw [mem_pairsYX]; simp)]
        have e2 : R.2.1 (4 * k + 2) r = g (4 * k + 2) r := by
          rw [hgrid, fold_canonStep_eval _ g _ _ (pairsYX_nodup r w),
            if_neg (by rw [mem_pairsYX]; simp)]
        have e3 : R.2.1 (4 * k + 3) r = g (4 * k + 3) r := by
          rw [hgrid, fold_canonStep_eval _ g _ _ (pairsYX_nodup r w),
            if_neg (by rw [mem_pairsYX]; simp)]
        rw [e0, e1, e2, e3]
      rw [show R = (R.1, R.2.1, R.2.2) from rfl]
      refine ⟨by rw [rowlen, ihlen], ?_, ?_⟩
      · intro y k hy hk
        rw [rowget]
        by_cases hyr : y = r
        · subst hyr
          rw [if_pos (by constructor <;> omega)]
          rw [show y * (w / 4) + k - y * (w / 4) = k from by omega, hpack]
        · have hlt := mulIdx_lt y k d r (by omega) (by omega)
          have hcomm : d * r = r * d := Nat.mul_comm d r
          rw [if_neg (by rw [hd4]; omega)]
          exact ihbytes y k (by omega) hk
      · intro m hm
        have hsucc : (r + 1) * (w / 4) = r * (w / 4) + w / 4 := by ring
        rw [rowget, if_neg (by omega)]
        exact ihrest m (by omega)

theorem encode4GrayExact_parts (w h : Nat) (g : Nat → Nat → Nat) (hw4 : 4 ∣ w) :
    (encode4GrayExact w h g).1.length = w / 4 * h ∧
    (∀ y k, y < h → k < w / 4 →
      (encode4GrayExact w h g).1.getD (y * (w / 4) + k) 0 = packE g k y) := by
  obtain ⟨l1, l2, _⟩ := rows4E w h g hw4 h (le_refl h)
  exact ⟨l1, l2⟩

/-- The pixel-store returned by the exact-orientation 4-gray encoder: every in-range
cell has been remapped through `canonPix` in place; everything else is untouched.
(No divisibility or size hypotheses are needed: the remap happens on every visit.) -/
theorem encode4GrayExact_grid (w h : Nat) (g : Nat → Nat → Nat) (u v : Nat) :
    (encode4GrayExact w h g).2 u v = if u < w ∧ v < h then canonPix (g u v) else g u v := by
  have h1 : (encode4GrayExact w h g).2
      = (pairsYX h w).foldl (fun G p => canonStep G p.1 p.2) g :=
    fold_step4E_grid w _ _ g 0
  rw [h1, fold_canonStep_eval _ g _ _ (pairsYX_nodup h w)]
  exact if_congr (by rw [mem_pairsYX]) rfl rfl

/-- Packed byte produced for group `k` of input column block `x` of the
transposed-orientation 4-gray branch. -/
def packT (g : Nat → Nat → Nat) (x k : Nat) : Nat :=
  pack4 (canonPix (g x (4 * k))) (canonPix (g x (4 * k + 1)))
    (canonPix (g x (4 * k + 2))) (canonPix (g x (4 * k + 3)))

theorem col4T (w h x : Nat) (G : Nat → Nat → Nat) (hw4 : 4 ∣ w) :
    ∀ (c : Nat) (buf : List Nat) (i₀ : Nat), 4 ∣ i₀ → 4 * c ≤ w → buf.length = w / 4 * h →
      x < h →
    ((((List.range (4 * c)).map fun y => (x, y)).foldl (step4T w h) (buf, G, i₀)).1.length
        = buf.length) ∧
    ∀ m, (((List.range (4 * c)).map fun y => (x, y)).foldl (step4T w h) (buf, G, i₀)).1.getD m 0
      = if (h - x - 1) * (w / 4) ≤ m ∧ m < (h - x - 1) * (w / 4) + c
        then packT G x (m - (h - x - 1) * (w / 4))
        else buf.getD m 0 := by
  intro c
  induction c with
  | zero =>
      intro buf i₀ _ _ _ _
      refine ⟨rfl, fun m => ?_⟩
      rw [if_neg (by omega)]
      rfl
  | succ c ih =>
      intro buf i₀ hi4 hcw hlen hx
      have hsplit : (List.range (4 * (c + 1))).map (fun y => (x, y))
          = ((List.range (4 * c)).map fun y => (x, y))
            ++ [(x, 4 * c), (x, 4 * c + 1), (x, 4 * c + 2), (x, 4 * c + 3)] := by
        rw [show 4 * (c + 1) = 4 * c + 4 from by ring, range_add_four, List.map_append]
        rfl
      rw [hsplit, List.foldl_append]
      obtain ⟨ihlen, ihgetD⟩ := ih buf i₀ hi4 (by omega) hlen hx
      set R := ((List.range (4 * c)).map fun y => (x, y)).foldl (step4T w h) (buf, G, i₀)
        with hR
      have hgrid : R.2.1 = ((List.range (4 * c)).map fun y => (x, y)).foldl
          (fun Gg p => canonStep Gg p.1 p.2) G := fold_step4T_grid w h _ buf G i₀
      have hcount : R.2.2 = i₀ + 4 * c := by
        rw [hR, fold_step4T_count w h _ buf G i₀]
        simp
      have hg0 : R.2.1 x (4 * c) = G x (4 * c) := by
        rw [hgrid, fold_canonStep_eval _ _ _ _ (colMap_nodup _ _),
          if_neg (by rw [mem_colMap]; omega)]
      have hg1 : R.2.1 x (4 * c + 1) = G x (4 * c + 1) := by
        rw [hgrid, fold_canonStep_eval _ _ _ _ (colMap_nodup _ _),
          if_neg (by rw [mem_colMap]; omega)]
      have hg2 : R.2.1 x (4 * c + 2) = G x (4 * c + 2) := by
        rw [hgrid, fold_canonStep_eval _ _ _ _ (colMap_nodup _ _),
          if_neg (by rw [mem_colMap]; omega)]
      have hg3 : R.2.1 x (4 * c + 3) = G x (4 * c + 3) := by
        rw [hgrid, fold_canonStep_eval _ _ _ _ (colMap_nodup _ _),
          if_neg (by rw [mem_colMap]; omega)]
      have hs1 : step4T w h R (x, 4 * c)
          = (R.1, canonStep R.2.1 x (4 * c), R.2.2 + 1) := by
        simp only [step4T]
        rw [hcount, if_neg (by omega)]
      have hs2 : step4T w h (R.1, canonStep R.2.1 x (4 * c), R.2.2 + 1) (x, 4 * c + 1)
          = (R.1, canonStep (canonStep R.2.1 x (4 * c)) x (4 * c + 1), R.2.2 + 1 + 1) := by
        simp only [step4T]
        rw [hcount, if_neg (by omega)]
      have hs3 : step4T w h (R.1, canonStep (canonStep R.2.1 x (4 * c)) x (4 * c + 1),
            R.2.2 + 1 + 1) (x, 4 * c + 2)
          = (R.1, canonStep (canonStep (canonStep R.2.1 x (4 * c)) x (4 * c + 1)) x (4 * c + 2),
            R.2.2 + 1 + 1 + 1) := by
        simp only [step4T]
        rw [hcount, if_neg (by omega)]
      have hs4 : step4T w h (R.1,
            canonStep (canonStep (canonStep R.2.1 x (4 * c)) x (4 * c + 1)) x (4 * c + 2),
            R.2.2 + 1 + 1 + 1) (x, 4 * c + 3)
          = (R.1.set ((4 * c + 3 + (h - x - 1) * w) / 4)
              (pack4
                (canonStep (canonStep (canonStep (canonStep R.2.1 x (4 * c)) x (4 * c + 1))
                  x (4 * c + 2)) x (4 * c + 3) x (4 * c + 3 - 3))
                (canonStep (canonStep (canonStep (canonStep R.2.1 x (4 * c)) x (4 * c + 1))
                  x (4 * c + 2)) x (4 * c + 3) x (4 * c + 3 - 2))
                (canonStep (canonStep (canonStep (canonStep R.2.1 x (4 * c)) x (4 * c + 1))
                  x (4 * c + 2)) x (4 * c + 3) x (4 * c + 3 - 1))
                (canonStep (canonStep (canonStep (canonStep R.2.1 x (4 * c)) x (4 * c + 1))
                  x (4 * c + 2)) x (4 * c + 3) x (4 * c + 3))),
            canonStep (canonStep (canonStep (canonStep R.2.1 x (4 * c)) x (4 * c + 1))
              x (4 * c + 2)) x (4 * c + 3),
            R.2.2 + 1 + 1 + 1 + 1) := by
        simp only [step4T]
        rw [hcount, if_pos (by omega)]
      have hv0 : canonStep (canonStep (canonStep (canonStep R.2.1 x (4 * c)) x (4 * c + 1))
          x (4 * c + 2)) x (4 * c + 3) x (4 * c + 3 - 3) = canonPix (G x (4 * c)) := by
        rw [show 4 * c + 3 - 3 = 4 * c from by omega,
          canonStep_apply_ne _ _ _ _ _ (by omega), canonStep_apply_ne _ _ _ _ _ (by omega),
          canonStep_apply_ne _ _ _ _ _ (by omega), canonStep_apply_eq, hg0]
      have hv1 : canonStep (canonStep (canonStep (canonStep R.2.1 x (4 * c)) x (4 * c + 1))
          x (4 * c + 2)) x (4 * c + 3) x (4 * c + 3 - 2) = canonPix (G x (4 * c + 1)) := by
        rw [show 4 * c + 3 - 2 = 4 * c + 1 from by omega,
          canonStep_apply_ne _ _ _ _ _ (by omega), canonStep_apply_ne _ _ _ _ _ (by omega),
          canonStep_apply_eq]
        rw [canonStep_apply_ne _ _ _ _ _ (by omega), hg1]
      have hv2 : canonStep (canonStep (canonStep (canonStep R.2.1 x (4 * c)) x (4 * c + 1))
          x (4 * c + 2)) x (4 * c + 3) x (4 * c + 3 - 1) = canonPix (G x (4 * c + 2)) := by
        rw [show 4 * c + 3 - 1 = 4 * c + 2 from by omega,
          canonStep_apply_ne _ _ _ _ _ (by omega), canonStep_apply_eq]
        rw [canonStep_apply_ne _ _ _ _ _ (by omega), canonStep_apply_ne _ _ _ _ _ (by omega),
          hg2]
      have hv3 : canonStep (canonStep (canonStep (canonStep R.2.1 x (4 * c)) x (4 * c + 1))
          x (4 * c + 2)) x (4 * c + 3) x (4 * c + 3) = canonPix (G x (4 * c + 3)) := by
        rw [canonStep_apply_eq]
        rw [canonStep_apply_ne _ _ _ _ _ (by omega), canonStep_apply_ne _ _ _ _ _ (by omega),
          canonStep_apply_ne _ _ _ _ _ (by omega), hg3]
      obtain ⟨d, hd⟩ := hw4
      have hd4 : w / 4 = d := by omega
      have hxw : (h - x - 1) * w = 4 * ((h - x - 1) * (w / 4)) := by rw [hd4, hd]; ring
      have hidx : (4 * c + 3 + (h - x - 1) * w) / 4 = (h - x - 1) * (w / 4) + c := by omega
      simp only [List.foldl_cons, List.foldl_nil]
      rw [hs1, hs2, hs3, hs4, hv0, hv1, hv2, hv3, hidx]
      constructor
      · simp only [List.length_set]
        exact ihlen
      · intro m
        by_cases hm : m = (h - x - 1) * (w / 4) + c
        · subst hm
          rw [setGetD_eq _ _ _ (by
            rw [ihlen, hlen, hd4]
            have := mulIdx_lt (h - x - 1) c d h (by omega) (by omega)
            omega)]
          rw [if_pos (by omega)]
          rw [show (h - x - 1) * (w / 4) + c - (h - x - 1) * (w / 4) = c from by omega]
          rfl
        · rw [setGetD_ne _ _ _ _ (by omega), ihgetD m]
          exact if_congr (by omega) rfl rfl

theorem blocks4T (w h : Nat) (g : Nat → Nat → Nat) (hw4 : 4 ∣ w) :
    ∀ r, r ≤ h →
    (((pairsXY r w).foldl (step4T w h) (List.replicate (w / 4 * h) 0xFF, g, 0)).1.length
        = w / 4 * h) ∧
    (∀ x k, x < r → k < w / 4 →
      ((pairsXY r w).foldl (step4T w h) (List.replicate (w / 4 * h) 0xFF, g, 0)).1.getD
          ((h - x - 1) * (w / 4) + k) 0 = packT g x k) ∧
    (∀ m, m < (h - r) * (w / 4) →
      ((pairsXY r w).foldl (step4T w h) (List.replicate (w / 4 * h) 0xFF, g, 0)).1.getD m 0
        = (List.replicate (w / 4 * h) (0xFF : Nat)).getD m 0) := by
  intro r
  induction r with
  | zero =>
      intro _
      refine ⟨by simp [pairsXY], fun x k hx _ => absurd hx (by omega), fun m _ => by
        simp [pairsXY]⟩
  | succ r ihh =>
      intro hr1
      obtain ⟨ihlen, ihbytes, ihrest⟩ := ihh (by omega)
      rw [pairsXY_succ, List.foldl_append]
      set R := (pairsXY r w).foldl (step4T w h) (List.replicate (w / 4 * h) 0xFF, g, 0)
        with hR
      have hgrid : R.2.1 = (pairsXY r w).foldl (fun G p => canonStep G p.1 p.2) g := by
        rw [hR]; exact fold_step4T_grid w h _ _ g 0
      have hcount : R.2.2 = r * w := by
        rw [hR, fold_step4T_count w h _ _ g 0, pairsXY_length]
        omega
      obtain ⟨d, hd⟩ := hw4
      have hd4 : w / 4 = d := by omega
      have hi4 : 4 ∣ R.2.2 := ⟨r * d, by rw [hcount, hd]; ring⟩
      obtain ⟨rowlen, rowget⟩ := col4T w h r R.2.1 ⟨d, hd⟩ (w / 4) R.1 R.2.2 hi4
        (by omega) (by rw [ihlen]) (by omega)
      have hw44 : 4 * (w / 4) = w := by omega
      rw [hw44] at rowlen rowget
      have hpack : ∀ k, packT R.2.1 r k = packT g r k := by
        intro k
        simp only [packT]
        have e0 : R.2.1 r (4 * k) = g r (4 * k) := by
          rw [hgrid, fold_canonStep_eval _ g _ _ (pairsXY_nodup r w),
            if_neg (by rw [mem_pairsXY]; simp)]
        have e1 : R.2.1 r (4 * k + 1) = g r (4 * k + 1) := by
          rw [hgrid, fold_canonStep_eval _ g _ _ (pairsXY_nodup r w),
            if_neg (by rw [mem_pairsXY]; simp)]
        have e2 : R.2.1 r (4 * k + 2) = g r (4 * k + 2) := by
          rw [hgrid, fold_canonStep_eval _ g _ _ (pairsXY_nodup r w),
            if_neg (by rw [mem_pairsXY]; simp)]
        have e3 : R.2.1 r (4 * k + 3) = g r (4 * k + 3) := by
          rw [hgrid, fold_canonStep_eval _ g _ _ (pairsXY_nodup r w),
            if_neg (by rw [mem_pairsXY]; simp)]
        rw [e0, e1, e2, e3]
      rw [show R = (R.1, R.2.1, R.2.2) from rfl]
      refine ⟨by rw [rowlen, ihlen], ?_, ?_⟩
      · intro x k hx hk
        rw [rowget]
        by_cases hxr : x = r
        · subst hxr
          rw [if_pos (by constructor <;> omega)]
          rw [show (h - x - 1) * (w / 4) + k - (h - x - 1) * (w / 4) = k from by omega, hpack]
        · have hmono : (h - r) * d ≤ (h - x - 1) * d := Nat.mul_le_mul_right d (by omega)
          have hsplit2 : (h - r) * d = (h - r - 1) * d + d := by
            obtain ⟨A, hA⟩ : ∃ A, h - r = A + 1 := ⟨h - r - 1, by omega⟩
            rw [hA, show A + 1 - 1 = A from by omega]
            ring
          rw [if_neg (by rw [hd4]; omega)]
          exact ihbytes x k (by omega) hk
      · intro m hm
        have hsplit2 : (h - r) * (w / 4) = (h - r - 1) * (w / 4) + w / 4 := by
          obtain ⟨A, hA⟩ : ∃ A, h - r = A + 1 := ⟨h - r - 1, by omega⟩
          rw [hA, show A + 1 - 1 = A from by omega]
          ring
        have hm' : m < (h - r - 1) * (w / 4) := by
          have : h - (r + 1) = h - r - 1 := by omega
          rwa [this] at hm
        rw [rowget, if_neg (by omega)]
        exact ihrest m (by omega)

theorem encode4GrayTransposed_parts (w h : Nat) (g : Nat → Nat → Nat) (hw4 : 4 ∣ w) :
    (encode4GrayTransposed w h g).1.length = w / 4 * h ∧
    (∀ x k, x < h → k < w / 4 →
      (encode4GrayTransposed w h g).1.getD ((h - x - 1) * (w / 4) + k) 0 = packT g x k) := by
  obtain ⟨l1, l2, _⟩ := blocks4T w h g hw4 h (le_refl h)
  exact ⟨l1, l2⟩

theorem encode4GrayTransposed_grid (w h : Nat) (g : Nat → Nat → Nat) (u v : Nat) :
    (encode4GrayTransposed w h g).2 u v
      = if u < h ∧ v < w then canonPix (g u v) else g u v := by
  have h1 : (encode4GrayTransposed w h g).2
      = (pairsXY h w).foldl (fun G p => canonStep G p.1 p.2) g :=
    fold_step4T_grid w h _ _ g 0
  rw [h1, fold_canonStep_eval _ g _ _ (pairsXY_nodup h w)]
  exact if_congr (by rw [mem_pairsXY]) rfl rfl

/-- The transposed 4-gray branch produces the same buffer as running the exact
branch on the 90-degree-rotated grid. -/
theorem transposed4Gray_eq_rotExact (w h : Nat) (g : Nat → Nat → Nat) (hw4 : 4 ∣ w) :
    (encode4GrayTransposed w h g).1
      = (encode4GrayExact w h fun u v => g (h - 1 - v) u).1 := by
  obtain ⟨lenT, bytesT⟩ := encode4GrayTransposed_parts w h g hw4
  obtain ⟨lenE, bytesE⟩ := encode4GrayExact_parts w h (fun u v => g (h - 1 - v) u) hw4
  apply List.ext_getElem (by rw [lenT, lenE])
  intro i h1 h2
  rw [← List.getD_eq_getElem _ 0 h1, ← List.getD_eq_getElem _ 0 h2]
  have hi : i < w / 4 * h := by rwa [lenT] at h1
  have hdpos : 0 < w / 4 := by
    rcases Nat.eq_zero_or_pos (w / 4) with h0 | hpos
    · rw [h0] at hi; omega
    · exact hpos
  have hhpos : 0 < h := by
    rcases Nat.eq_zero_or_pos h with h0 | hpos
    · rw [h0] at hi; omega
    · exact hpos
  have hy : i / (w / 4) < h := by
    apply Nat.div_lt_of_lt_mul
    exact hi
  have hk : i % (w / 4) < w / 4 := Nat.mod_lt _ hdpos
  have hiyk : i / (w / 4) * (w / 4) + i % (w / 4) = i := by
    have h1 := Nat.div_add_mod i (w / 4)
    have h2 : w / 4 * (i / (w / 4)) = i / (w / 4) * (w / 4) := Nat.mul_comm _ _
    omega
  generalize hq : i / (w / 4) = q at hy hiyk
  have hx : h - 1 - q < h := by omega
  have hxx : h - (h - 1 - q) - 1 = q := by omega
  have hbT := bytesT (h - 1 - q) (i % (w / 4)) hx hk
  rw [hxx] at hbT
  rw [← hiyk, hbT, bytesE q (i % (w / 4)) hy hk]
  simp only [packT, packE]

/-- Concrete transposed 2×8 grid used by the witness. -/
def wPix4 : Nat → Nat → Nat :=
  fun x y => if x = 0 ∧ y = 1 then 0xC0 else if x = 1 then 0x80 else 0xFF

/-- Claim C3: for a transposed (h×w) input grid, either encoder branch produces a
buffer byte-identical to encoding directly the w×h grid obtained by the 90° rotation
mapping input pixel (x, y) to panel position (y, h−1−x) — i.e. the rotated grid
`(u, v) ↦ pix (h − 1 − v) u` — for the OneBit (panel width a multiple of 8) and
FourLevel (multiple of 4) encoders. -/
theorem C3_transposed_equals_rotated (w h : Nat) (pix g : Nat → Nat → Nat) :
    (8 ∣ w → encode1GrayTransposed w h pix
        = encode1GrayExact w h fun u v => pix (h - 1 - v) u) ∧
    (4 ∣ w → (encode4GrayTransposed w h g).1
        = (encode4GrayExact w h fun u v => g (h - 1 - v) u).1) :=
  ⟨fun hw => transposed1Gray_eq_rotExact w h pix hw,
   fun hw => transposed4Gray_eq_rotExact w h g hw⟩

theorem C3_transposed_equals_rotated_witness :
    (encode1GrayTransposed 8 2 wPix = encode1GrayExact 8 2 fun u v => wPix (2 - 1 - v) u) ∧
    ((encode4GrayTransposed 8 2 wPix4).1
      = (encode4GrayExact 8 2 fun u v => wPix4 (2 - 1 - v) u).1) :=
  ⟨(C3_transposed_equals_rotated 8 2 wPix wPix4).1 ⟨1, rfl⟩,
   (C3_transposed_equals_rotated 8 2 wPix wPix4).2 ⟨2, rfl⟩⟩

/-- Concrete grid with a `0xC0` (GRAY2) pixel at the origin. -/
def cPix : Nat → Nat → Nat := fun x y => if x = 0 ∧ y = 0 then 0xC0 else 0

/-- Claim C7 is false on the code: the FourLevel encoder is not side-effect-free and
does apply the `0xC0→0x80` / `0x80→0x40` canonicalization. At the 4×1 geometry with a
`0xC0` pixel at `(0,0)`, the pixel store is mutated (`0xC0` becomes `0x80`) and the
packed byte is built from the canonicalized value. -/
theorem C7_counterexample :
    (encode4GrayExact 4 1 cPix).2 0 0 ≠ cPix 0 0 ∧
    (encode4GrayExact 4 1 cPix).2 0 0 = 0x80 ∧
    (encode4GrayExact 4 1 cPix).1 = [0x80] := by decide

/-- Claim C7 (amended): the OneBit encoder never writes to the pixel grid (its
embedding takes the grid read-only), but the FourLevel encoder canonicalizes
`0xC0→0x80` and `0x80→0x40` in place: every in-range cell of the returned pixel
store has been remapped through `canonPix`, in both orientation branches. -/
theorem C7_fourLevel_canonicalizes_in_place (w h : Nat) (g : Nat → Nat → Nat) (u v : Nat) :
    ((encode4GrayExact w h g).2 u v = if u < w ∧ v < h then canonPix (g u v) else g u v) ∧
    ((encode4GrayTransposed w h g).2 u v = if u < h ∧ v < w then canonPix (g u v) else g u v) ∧
    canonPix 0xC0 = 0x80 ∧ canonPix 0x80 = 0x40 :=
  ⟨encode4GrayExact_grid w h g u v, encode4GrayTransposed_grid w h g u v, rfl, rfl⟩

/-- Claim C5 is false on the code: with input dimensions (3×3) matching the 8×2
panel geometry in neither orientation, the encoders raise nothing and return the
untouched all-`0xFF` initialized buffer. -/
theorem C5_counterexample :
    get_frame_buffer_for_size_1Gray 8 2 3 3 (fun _ _ => 0) = List.replicate 2 0xFF ∧
    (get_frame_buffer_for_size_4Gray 8 2 3 3 (fun _ _ => 0)).1 = List.replicate 4 0xFF := by
  decide

/-- Claim C5 (amended): when the input grid dimensions match the panel geometry in
neither orientation, both encoders silently return the all-`0xFF` initial buffer
(panel-sized) with the pixel store untouched; no error condition exists. -/
theorem C5_mismatch_returns_blank (w h imw imh : Nat) (pix g : Nat → Nat → Nat)
    (h1 : ¬(imw = w ∧ imh = h)) (h2 : ¬(imw = h ∧ imh = w)) :
    get_frame_buffer_for_size_1Gray w h imw imh pix = List.replicate (w / 8 * h) 0xFF ∧
    (get_frame_buffer_for_size_4Gray w h imw imh g).1 = List.replicate (w / 4 * h) 0xFF ∧
    (get_frame_buffer_for_size_4Gray w h imw imh g).2 = g := by
  simp only [get_frame_buffer_for_size_1Gray, get_frame_buffer_for_size_4Gray,
    if_neg h1, if_neg h2]
  exact ⟨trivial, trivial, trivial⟩

theorem C5_mismatch_returns_blank_witness :
    get_frame_buffer_for_size_1Gray 8 2 3 5 (fun _ _ => 0) = List.replicate (8 / 8 * 2) 0xFF ∧
    (get_frame_buffer_for_size_4Gray 8 2 3 5 (fun _ _ => 0)).1
        = List.replicate (8 / 4 * 2) 0xFF ∧
    (get_frame_buffer_for_size_4Gray 8 2 3 5 (fun _ _ => 0)).2 = (fun _ _ => 0) :=
  C5_mismatch_returns_blank 8 2 3 5 (fun _ _ => 0) (fun _ _ => 0) (by decide) (by decide)

/-! ## Second-plane derivation inside `display_4Gray` (RAM writes 0x24 and 0x26).

Per output byte `i`, two packed source bytes `frame_buffer[i*2]` and
`frame_buffer[i*2+1]` are consumed; each 2-bit sample `temp2 = temp1 & 0xC0` is
mapped through a truth table, the result bit ORed into `temp3`, which is shifted
left after every sample except the last. -/

/-- BW-plane (`0x24`) truth table on `temp2 = temp1 & 0xC0`:
white `0xC0`→1, black `0x00`→0, gray1 `0x80`→0, gray2 (else, `0x40`)→1. -/
def bwBit (t2 : Nat) : Nat :=
  if t2 = 0xC0 then 0x01 else if t2 = 0x00 then 0x00 else if t2 = 0x80 then 0x00 else 0x01

/-- RED-plane (`0x26`) truth table: white→1, black→0, gray1→1, gray2→0. -/
def redBit (t2 : Nat) : Nat :=
  if t2 = 0xC0 then 0x01 else if t2 = 0x00 then 0x00 else if t2 = 0x80 then 0x01 else 0x00

/-- One output byte of a derived plane: the `j`/`k` loops of `display_4Gray`
unrolled (7 interleaved `temp3 <<= 1` shifts, `temp1` shifted two bits per sample). -/
def deriveByte (bit : Nat → Nat) (b0 b1 : Nat) : Nat :=
  (((((((0 ||| bit (b0 &&& 0xC0)) <<< 1
    ||| bit ((b0 <<< 2) &&& 0xC0)) <<< 1
    ||| bit ((b0 <<< 4) &&& 0xC0)) <<< 1
    ||| bit ((b0 <<< 6) &&& 0xC0)) <<< 1
    ||| bit (b1 &&& 0xC0)) <<< 1
    ||| bit ((b1 <<< 2) &&& 0xC0)) <<< 1
    ||| bit ((b1 <<< 4) &&& 0xC0)) <<< 1
    ||| bit ((b1 <<< 6) &&& 0xC0)

/-- The sequence of bytes sent after `WRITE_RAM_BW`/`WRITE_RAM_RED` in
`display_4Gray`: `n = height * (width / 8)` bytes, byte `i` derived from
`frame_buffer[i*2]` and `frame_buffer[i*2+1]`. -/
def derivePlane (bit : Nat → Nat) (n : Nat) (fb : List Nat) : List Nat :=
  (List.range n).map fun i => deriveByte bit (fb.getD (i * 2) 0) (fb.getD (i * 2 + 1) 0)

/-- The claim's BW truth table on 2-bit samples {0b11→1, 0b00→0, 0b10→0, 0b01→1}. -/
def bwSample (s : Nat) : Nat := if s = 3 then 1 else if s = 0 then 0 else if s = 2 then 0 else 1

/-- The claim's RED truth table on 2-bit samples {0b11→1, 0b00→0, 0b10→1, 0b01→0}. -/
def redSample (s : Nat) : Nat := if s = 3 then 1 else if s = 0 then 0 else if s = 2 then 1 else 0

/-- 2-bit sample `q` (MSB-first) of a packed byte. -/
def sample2 (b q : Nat) : Nat := b / 4 ^ (3 - q) % 4

theorem bwArg0 : ∀ b < 256, bwBit (b &&& 0xC0) = bwSample (b / 64 % 4) := by decide
theorem bwArg2 : ∀ b < 256, bwBit ((b <<< 2) &&& 0xC0) = bwSample (b / 16 % 4) := by decide
theorem bwArg4 : ∀ b < 256, bwBit ((b <<< 4) &&& 0xC0) = bwSample (b / 4 % 4) := by decide
theorem bwArg6 : ∀ b < 256, bwBit ((b <<< 6) &&& 0xC0) = bwSample (b % 4) := by decide
theorem redArg0 : ∀ b < 256, redBit (b &&& 0xC0) = redSample (b / 64 % 4) := by decide
theorem redArg2 : ∀ b < 256, redBit ((b <<< 2) &&& 0xC0) = redSample (b / 16 % 4) := by decide
theorem redArg4 : ∀ b < 256, redBit ((b <<< 4) &&& 0xC0) = redSample (b / 4 % 4) := by decide
theorem redArg6 : ∀ b < 256, redBit ((b <<< 6) &&& 0xC0) = redSample (b % 4) := by decide

theorem bwSample_le (s : Nat) : bwSample s ≤ 1 := by
  unfold bwSample
  split_ifs <;> omega

theorem redSample_le (s : Nat) : redSample s ≤ 1 := by
  unfold redSample
  split_ifs <;> omega

theorem gbits : ∀ x < 256, ∀ p < 8,
    ((((((((0 ||| x / 128 % 2) <<< 1 ||| x / 64 % 2) <<< 1 ||| x / 32 % 2) <<< 1
        ||| x / 16 % 2) <<< 1 ||| x / 8 % 2) <<< 1 ||| x / 4 % 2) <<< 1 ||| x / 2 % 2) <<< 1
        ||| x % 2) / 2 ^ (7 - p) % 2
      = x / 2 ^ (7 - p) % 2 := by decide

theorem deriveByte_bit (bitf sf : Nat → Nat)
    (hsle : ∀ s, sf s ≤ 1)
    (h0 : ∀ b < 256, bitf (b &&& 0xC0) = sf (b / 64 % 4))
    (h2 : ∀ b < 256, bitf ((b <<< 2) &&& 0xC0) = sf (b / 16 % 4))
    (h4 : ∀ b < 256, bitf ((b <<< 4) &&& 0xC0) = sf (b / 4 % 4))
    (h6 : ∀ b < 256, bitf ((b <<< 6) &&& 0xC0) = sf (b % 4))
    (b0 b1 : Nat) (hb0 : b0 < 256) (hb1 : b1 < 256) (p : Nat) (hp : p < 8) :
    deriveByte bitf b0 b1 / 2 ^ (7 - p) % 2
      = sf (sample2 (if p < 4 then b0 else b1) (p % 4)) := by
  have ha0 := hsle (b0 / 64 % 4)
  have ha1 := hsle (b0 / 16 % 4)
  have ha2 := hsle (b0 / 4 % 4)
  have ha3 := hsle (b0 % 4)
  have ha4 := hsle (b1 / 64 % 4)
  have ha5 := hsle (b1 / 16 % 4)
  have ha6 := hsle (b1 / 4 % 4)
  have ha7 := hsle (b1 % 4)
  set x := sf (b0 / 64 % 4) * 128 + sf (b0 / 16 % 4) * 64 + sf (b0 / 4 % 4) * 32
    + sf (b0 % 4) * 16 + sf (b1 / 64 % 4) * 8 + sf (b1 / 16 % 4) * 4 + sf (b1 / 4 % 4) * 2
    + sf (b1 % 4) with hxdef
  have hx : x < 256 := by omega
  have d0 : x / 128 % 2 = sf (b0 / 64 % 4) := by omega
  have d1 : x / 64 % 2 = sf (b0 / 16 % 4) := by omega
  have d2 : x / 32 % 2 = sf (b0 / 4 % 4) := by omega
  have d3 : x / 16 % 2 = sf (b0 % 4) := by omega
  have d4 : x / 8 % 2 = sf (b1 / 64 % 4) := by omega
  have d5 : x / 4 % 2 = sf (b1 / 16 % 4) := by omega
  have d6 : x / 2 % 2 = sf (b1 / 4 % 4) := by omega
  have d7 : x % 2 = sf (b1 % 4) := by omega
  rw [deriveByte, h0 b0 hb0, h2 b0 hb0, h4 b0 hb0, h6 b0 hb0, h0 b1 hb1, h2 b1 hb1,
    h4 b1 hb1, h6 b1 hb1]
  rw [← d0, ← d1, ← d2, ← d3, ← d4, ← d5, ← d6, ← d7]
  rw [gbits x hx p hp]
  interval_cases p
  · rw [show (2 : Nat) ^ (7 - 0) = 128 from by norm_num, d0]
    simp [sample2]
  · rw [show (2 : Nat) ^ (7 - 1) = 64 from by norm_num, d1]
    simp [sample2]
  · rw [show (2 : Nat) ^ (7 - 2) = 32 from by norm_num, d2]
    simp [sample2]
  · rw [show (2 : Nat) ^ (7 - 3) = 16 from by norm_num, d3]
    simp [sample2]
  · rw [show (2 : Nat) ^ (7 - 4) = 8 from by norm_num, d4]
    simp [sample2]
  · rw [show (2 : Nat) ^ (7 - 5) = 4 from by norm_num, d5]
    simp [sample2]
  · rw [show (2 : Nat) ^ (7 - 6) = 2 from by norm_num, d6]
    simp [sample2]
  · rw [show (2 : Nat) ^ (7 - 7) = 1 from by norm_num, Nat.div_one, d7]
    simp [sample2]

theorem derivePlane_replicate (bit : Nat → Nat) (n c : Nat) :
    derivePlane bit n (List.replicate (2 * n) c) = List.replicate n (deriveByte bit c c) := by
  apply List.ext_getElem (by simp [derivePlane])
  intro i h1 h2
  have hi : i < n := by simpa [derivePlane] using h1
  simp only [derivePlane, List.getElem_map, List.getElem_range, List.getElem_replicate]
  rw [getD_replicate_lt _ _ _ (by omega), getD_replicate_lt _ _ _ (by omega)]

/-- Claim C2: the FourLevel second-plane derivation maps every 2-bit packed sample
through the truth tables BW {white 0b11→1, black 0b00→0, gray1 0b10→0, gray2 0b01→1}
and RED {white→1, black→0, gray1→1, gray2→0} (bit `p` MSB-first of output byte =
table applied to sample `p` of the source byte pair); in particular an all-`0xFF`
packed buffer yields an all-`0xFF` BW plane, an all-`0x00` buffer an all-`0x00`
BW plane, and a buffer whose every sample is gray1 (bytes `0xAA`) yields an
all-`0x00` BW plane and an all-`0xFF` RED plane. -/
theorem C2_second_plane_derivation :
    (∀ b0 b1, b0 < 256 → b1 < 256 → ∀ p < 8,
      deriveByte bwBit b0 b1 / 2 ^ (7 - p) % 2
        = bwSample (sample2 (if p < 4 then b0 else b1) (p % 4))) ∧
    (∀ b0 b1, b0 < 256 → b1 < 256 → ∀ p < 8,
      deriveByte redBit b0 b1 / 2 ^ (7 - p) % 2
        = redSample (sample2 (if p < 4 then b0 else b1) (p % 4))) ∧
    (∀ n, derivePlane bwBit n (List.replicate (2 * n) 0xFF) = List.replicate n 0xFF) ∧
    (∀ n, derivePlane bwBit n (List.replicate (2 * n) 0x00) = List.replicate n 0x00) ∧
    (∀ n, derivePlane bwBit n (List.replicate (2 * n) 0xAA) = List.replicate n 0x00) ∧
    (∀ n, derivePlane redBit n (List.replicate (2 * n) 0xAA) = List.replicate n 0xFF) := by
  refine ⟨?_, ?_, ?_, ?_, ?_, ?_⟩
  · exact fun b0 b1 hb0 hb1 p hp =>
      deriveByte_bit bwBit bwSample bwSample_le bwArg0 bwArg2 bwArg4 bwArg6 b0 b1 hb0 hb1 p hp
  · exact fun b0 b1 hb0 hb1 p hp =>
      deriveByte_bit redBit redSample redSample_le redArg0 redArg2 redArg4 redArg6 b0 b1 hb0
        hb1 p hp
  · intro n
    rw [derivePlane_replicate, show deriveByte bwBit 0xFF 0xFF = 0xFF from by decide]
  · intro n
    rw [derivePlane_replicate, show deriveByte bwBit 0x00 0x00 = 0x00 from by decide]
  · intro n
    rw [derivePlane_replicate, show deriveByte bwBit 0xAA 0xAA = 0x00 from by decide]
  · intro n
    rw [derivePlane_replicate, show deriveByte redBit 0xAA 0xAA = 0xFF from by decide]

theorem C2_second_plane_derivation_witness :
    (0x6C : Nat) < 256 ∧ (0x93 : Nat) < 256 ∧ (2 : Nat) < 8 ∧ (5 : Nat) < 8 ∧
    deriveByte bwBit 0x6C 0x93 / 2 ^ (7 - 2) % 2
      = bwSample (sample2 (if 2 < 4 then 0x6C else 0x93) (2 % 4)) ∧
    deriveByte redBit 0x6C 0x93 / 2 ^ (7 - 5) % 2
      = redSample (sample2 (if 5 < 4 then 0x6C else 0x93) (5 % 4)) :=
  ⟨by omega, by omega, by omega, by omega,
    C2_second_plane_derivation.1 0x6C 0x93 (by omega) (by omega) 2 (by omega),
    C2_second_plane_derivation.2.1 0x6C 0x93 (by omega) (by omega) 5 (by omega)⟩

/-! ## Protocol driver: wire-event traces.

`send_command b` / `send_data b` / `send_data2 bs` are modelled as single trace
events (their DC/CS framing is fixed boilerplate around the byte); `delay_ms` and
`print` are recorded too.  The busy line is an input oracle: a list of levels read
by `wait_until_idle` (the loop spins while the read is 1); the unread suffix is
returned.  `reset()`'s RST pulses are control-line writes, represented by their
delays. -/

inductive Ev where
  | cmd (b : Nat)
  | dat (b : Nat)
  | dat2 (bs : List Nat)
  | delay (ms : Nat)
  | print (s : String)
deriving DecidableEq

/-- Driver-instance state: panel geometry fields set in `__init__` plus the
`_init_performed` flag and the external resource claims. -/
structure EPDState where
  width : Nat
  height : Nat
  init_performed : Bool
  spi_open : Bool
  gpio_claimed : Bool
deriving DecidableEq

/-- `wait_until_idle`: `while digital_read(BUSY_PIN) == 1: delay_ms(10)`.
Returns the delay trace and the unconsumed busy-line reads. (If the oracle list is
exhausted the real loop would keep spinning; the model stops, which no claim
exercises.) -/
def wait_until_idle : List Nat → List Ev × List Nat
  | [] => ([], [])
  | r :: rest =>
    if r = 1 then
      ((Ev.delay 10) :: (wait_until_idle rest).1, (wait_until_idle rest).2)
    else ([], rest)

def reset_trace : List Ev := [Ev.delay 200, Ev.delay 5, Ev.delay 200]

/-- `load_lut`: command `0x32` followed by one bulk write of the LUT table. -/
def load_lut (lut : List Nat) : List Ev := [Ev.cmd 0x32, Ev.dat2 lut]

/-- The mode-dependent display-option block of `init` (command `0x37`);
an unrecognized mode prints `"error no mode"` and sends nothing. -/
def initModeBlock (mode : Nat) : List Ev :=
  if mode = 1 then
    [Ev.cmd 0x37, Ev.dat 0x00, Ev.dat 0xFF, Ev.dat 0xFF, Ev.dat 0xFF, Ev.dat 0xFF,
     Ev.dat 0x4F, Ev.dat 0xFF, Ev.dat 0xFF, Ev.dat 0xFF, Ev.dat 0xFF]
  else if mode = 0 then
    [Ev.cmd 0x37, Ev.dat 0x00, Ev.dat 0x00, Ev.dat 0x00, Ev.dat 0x00, Ev.dat 0x00,
     Ev.dat 0x00, Ev.dat 0x00, Ev.dat 0x00, Ev.dat 0x00, Ev.dat 0x00]
  else [Ev.print "error no mode"]

/-- `EPD.init(mode)` (`MODE_4GRAY = 0` is the default, `MODE_1GRAY = 1`): claims the
pins and bus, resets, runs the fixed configuration sequence (with two busy-waits
after the `0x46`/`0x47` auto-write commands), and marks `_init_performed`. -/
def init (mode : Nat) (s : EPDState) (busy : List Nat) : EPDState × List Ev × List Nat :=
  let w1 := wait_until_idle busy
  let w2 := wait_until_idle w1.2
  ({ s with init_performed := true, spi_open := true, gpio_claimed := true },
   reset_trace
     ++ [Ev.cmd 0x12, Ev.delay 300, Ev.cmd 0x46, Ev.dat 0xF7] ++ w1.1
     ++ [Ev.cmd 0x47, Ev.dat 0xF7] ++ w2.1
     ++ [Ev.cmd 0x01, Ev.dat 0xDF, Ev.dat 0x01, Ev.dat 0x00,
         Ev.cmd 0x03, Ev.dat 0x00,
         Ev.cmd 0x04, Ev.dat 0x41, Ev.dat 0xA8, Ev.dat 0x32,
         Ev.cmd 0x11, Ev.dat 0x03,
         Ev.cmd 0x3C, Ev.dat 0x03,
         Ev.cmd 0x0C, Ev.dat 0xAE, Ev.dat 0xC7, Ev.dat 0xC3, Ev.dat 0xC0, Ev.dat 0xC0,
         Ev.cmd 0x18, Ev.dat 0x80,
         Ev.cmd 0x2C, Ev.dat 0x44]
     ++ initModeBlock mode
     ++ [Ev.cmd 0x44, Ev.dat 0x00, Ev.dat 0x00, Ev.dat 0x17, Ev.dat 0x01,
         Ev.cmd 0x45, Ev.dat 0x00, Ev.dat 0x00, Ev.dat 0xDF, Ev.dat 0x01,
         Ev.cmd 0x22, Ev.dat 0xCF],
   w2.2)

/-- `EPD.sleep()`: deep-sleep command sequence, 2000 ms delay, closes the bus and
releases the pins.  It does NOT clear `_init_performed`. -/
def sleep (s : EPDState) : EPDState × List Ev :=
  ({ s with spi_open := false, gpio_claimed := false },
   [Ev.cmd 0x50, Ev.dat 0xF7, Ev.cmd 0x02, Ev.cmd 0x07, Ev.dat 0xA5, Ev.delay 2000])

/-- `EPD.display_1Gray(frame_buffer)`: silently returns when the buffer is `None`;
otherwise resets the RAM counters, bulk-writes the BW plane, loads the 1-gray LUT
and activates. -/
def display_1Gray (lutA2 : List Nat) (fb : Option (List Nat)) (s : EPDState)
    (busy : List Nat) : EPDState × List Ev × List Nat :=
  match fb with
  | none => (s, [], busy)
  | some f =>
    let wt := wait_until_idle busy
    (s, [Ev.cmd 0x4E, Ev.dat 0x00, Ev.dat 0x00, Ev.cmd 0x4F, Ev.dat 0x00, Ev.dat 0x00,
         Ev.cmd 0x24, Ev.dat2 f]
       ++ load_lut lutA2 ++ [Ev.cmd 0x20] ++ wt.1,
     wt.2)

/-- `EPD.display_4Gray(frame_buffer)`: silently returns when the buffer is `None`;
otherwise writes the derived BW plane (`0x24`) and RED plane (`0x26`) byte by byte,
loads the 4-gray LUT, issues `0x22`/`0xC7` and activates. -/
def display_4Gray (lut4 : List Nat) (fb : Option (List Nat)) (s : EPDState)
    (busy : List Nat) : EPDState × List Ev × List Nat :=
  match fb with
  | none => (s, [], busy)
  | some f =>
    let n := s.height * (s.width / 8)
    let wt := wait_until_idle busy
    (s, [Ev.cmd 0x4E, Ev.dat 0x00, Ev.dat 0x00, Ev.cmd 0x4F, Ev.dat 0x00, Ev.dat 0x00,
         Ev.cmd 0x24] ++ (derivePlane bwBit n f).map Ev.dat
       ++ [Ev.cmd 0x4E, Ev.dat 0x00, Ev.dat 0x00, Ev.cmd 0x4F, Ev.dat 0x00, Ev.dat 0x00,
         Ev.cmd 0x26] ++ (derivePlane redBit n f).map Ev.dat
       ++ load_lut lut4 ++ [Ev.cmd 0x22, Ev.dat 0xC7, Ev.cmd 0x20] ++ wt.1,
     wt.2)

/-- `EPD._get_frame_buffer(image, mode)`: `MODE_1GRAY` converts via PIL mode `'1'`
and 1-bit-packs; any other mode converts via `'L'` and 2-bit-packs.  The PIL
conversions are external capabilities, passed in as grid transforms. -/
def get_frame_buffer (convert1 convertL : (Nat → Nat → Nat) → Nat → Nat → Nat)
    (w h imw imh : Nat) (pix : Nat → Nat → Nat) (mode : Nat) : List Nat :=
  if mode = 1 then get_frame_buffer_for_size_1Gray w h imw imh (convert1 pix)
  else (get_frame_buffer_for_size_4Gray w h imw imh (convertL pix)).1

/-- `EPD.display_frame(image, mode)`: auto-initializes (with the default 4-gray
mode) only when `_init_performed` is false, encodes the frame, then dispatches on
the mode — an unrecognized mode just prints `"error no mode"`. -/
def display_frame (convert1 convertL : (Nat → Nat → Nat) → Nat → Nat → Nat)
    (lutA2 lut4 : List Nat) (imw imh : Nat) (pix : Nat → Nat → Nat) (mode : Nat)
    (s : EPDState) (busy : List Nat) : EPDState × List Ev × List Nat :=
  let r1 := if s.init_performed then (s, ([] : List Ev), busy) else init 0 s busy
  let fb := get_frame_buffer convert1 convertL r1.1.width r1.1.height imw imh pix mode
  if mode = 1 then
    let r2 := display_1Gray lutA2 (some fb) r1.1 r1.2.2
    (r2.1, r1.2.1 ++ r2.2.1, r2.2.2)
  else if mode = 0 then
    let r2 := display_4Gray lut4 (some fb) r1.1 r1.2.2
    (r2.1, r1.2.1 ++ r2.2.1, r2.2.2)
  else (r1.1, r1.2.1 ++ [Ev.print "error no mode"], r1.2.2)

/-- The payload bytes a trace asks the bus capability to put on the wire. -/
def wireBytes (t : List Ev) : List Nat :=
  t.flatMap fun e => match e with
    | Ev.cmd b => [b]
    | Ev.dat b => [b]
    | Ev.dat2 bs => bs
    | _ => []

/-- Claim C8: `wait_until_idle` polls the busy line, performing one fixed 10 ms
delay per busy (=1) reading and returning as soon as the line reads idle; in
particular the read sequence [busy, busy, idle] yields exactly 2 delay calls. -/
theorem C8_wait_until_idle_polls (k : Nat) (rest : List Nat) :
    (wait_until_idle (List.replicate k 1 ++ 0 :: rest)
      = (List.replicate k (Ev.delay 10), rest)) ∧
    (wait_until_idle [1, 1, 0]).1.length = 2 := by
  constructor
  · induction k with
    | zero => simp [wait_until_idle]
    | succ k ih =>
        rw [List.replicate_succ, List.cons_append, wait_until_idle]
        simp [ih, List.replicate_succ]
  · rfl

/-- Claim C9: `init` issues a wire trace that depends only on the mode and the
busy-line behaviour, never on the driver state — so two consecutive calls (same
busy behaviour) give byte-identical traces, with no skip-if-already-initialized
short-circuiting — and a repeated call leaves the state exactly as the first call
left it. -/
theorem C9_init_repeatable (mode : Nat) (s s' : EPDState) (busy busy2 : List Nat) :
    ((init mode s busy).2.1 = (init mode s' busy).2.1) ∧
    ((init mode ((init mode s busy).1) busy).2.1 = (init mode s busy).2.1) ∧
    ((init mode ((init mode s busy).1) busy2).1 = (init mode s busy).1) := by
  refine ⟨rfl, rfl, ?_⟩
  simp [init]

/-- Claim C10: a `None` frame buffer makes `display_4Gray` and `display_1Gray`
return immediately: unchanged state, empty trace (hence zero wire bytes, no LUT
load, no activation), busy line untouched. -/
theorem C10_none_framebuffer_noop (lutA2 lut4 : List Nat) (s : EPDState)
    (busy : List Nat) :
    display_1Gray lutA2 none s busy = (s, [], busy) ∧
    display_4Gray lut4 none s busy = (s, [], busy) ∧
    wireBytes ([] : List Ev) = [] :=
  ⟨rfl, rfl, rfl⟩

/-- Initialized 8×1 driver state used in concrete runs. -/
def sReady : EPDState := ⟨8, 1, true, true, true⟩

/-- Claim C4 is false on the code: after `sleep()` the `_init_performed` flag is
still set, and `display_frame` — which consults only that flag — neither raises a
`NotReady` error nor stays off the wire: it issues its full display command
sequence (11 driver operations here, nonempty wire payload). -/
theorem C4_counterexample :
    ((sleep sReady).1.init_performed = true) ∧
    wireBytes (display_frame (fun p => p) (fun p => p) [] [] 8 1 (fun _ _ => 255) 1
        (sleep sReady).1 [0]).2.1 ≠ [] ∧
    (display_frame (fun p => p) (fun p => p) [] [] 8 1 (fun _ _ => 255) 1
        (sleep sReady).1 [0]).2.1.length = 11 := by decide

/-- Claim C4 (amended): `sleep` never clears `_init_performed`, so `display_frame`
after `sleep` skips auto-initialization (auto-init happens only from the
uninitialized state) and proceeds without any error, issuing exactly the normal
display sequence — a nonempty wire-byte stream — to the closed bus. -/
theorem C4_display_after_sleep_not_gated
    (convert1 convertL : (Nat → Nat → Nat) → Nat → Nat → Nat) (lutA2 lut4 : List Nat)
    (imw imh : Nat) (pix : Nat → Nat → Nat) (s : EPDState) (busy : List Nat)
    (hs : s.init_performed = true) :
    ((sleep s).1.init_performed = s.init_performed) ∧
    ((display_frame convert1 convertL lutA2 lut4 imw imh pix 1 s busy).2.1
      = (display_1Gray lutA2
          (some (get_frame_buffer convert1 convertL s.width s.height imw imh pix 1))
          s busy).2.1) ∧
    wireBytes (display_frame convert1 convertL lutA2 lut4 imw imh pix 1 s busy).2.1 ≠ [] := by
  refine ⟨rfl, ?_, ?_⟩
  · simp [display_frame, hs]
  · simp [display_frame, hs, display_1Gray, wireBytes, load_lut]

theorem C4_display_after_sleep_not_gated_witness :
    (((sleep sReady).1.init_performed = sReady.init_performed) ∧
    ((display_frame (fun p => p) (fun p => p) [] [] 8 1 (fun _ _ => 255) 1 sReady [0]).2.1
      = (display_1Gray []
          (some (get_frame_buffer (fun p => p) (fun p => p) sReady.width sReady.height
            8 1 (fun _ _ => 255) 1))
          sReady [0]).2.1) ∧
    wireBytes (display_frame (fun p => p) (fun p => p) [] [] 8 1 (fun _ _ => 255) 1
        sReady [0]).2.1 ≠ []) :=
  C4_display_after_sleep_not_gated (fun p => p) (fun p => p) [] [] 8 1 (fun _ _ => 255)
    sReady [0] rfl

/-- Claim C6 is false on the code: with the unsupported mode 2, `display_frame`
completes normally — returning unchanged state and only a console print — and
`init` likewise prints but runs the whole remaining sequence, ending in the
`DISPLAY_UPDATE_CONTROL_2`/`0xCF` write with `_init_performed` set. -/
theorem C6_counterexample :
    (display_frame (fun p => p) (fun p => p) [] [] 8 1 (fun _ _ => 255) 2 sReady [0]
      = (sReady, [Ev.print "error no mode"], [0])) ∧
    ((init 2 sReady [0, 0]).1.init_performed = true) ∧
    ((init 2 sReady [0, 0]).2.1.getLast? = some (Ev.dat 0xCF)) := by decide

/-- Claim C6 (amended): for a mode that is neither OneBit (1) nor FourLevel (0),
no error is signalled: the mode block of `init` degenerates to a console print and
`init` still completes (flag set, same busy-line consumption as a valid mode), while
`display_frame` performs the auto-init step if needed and then only prints
`"error no mode"`, issuing no RAM write, LUT load or activation. -/
theorem C6_invalid_mode_prints_and_completes
    (convert1 convertL : (Nat → Nat → Nat) → Nat → Nat → Nat) (lutA2 lut4 : List Nat)
    (imw imh : Nat) (pix : Nat → Nat → Nat) (mode : Nat) (s : EPDState) (busy : List Nat)
    (h0 : mode ≠ 0) (h1 : mode ≠ 1) :
    (initModeBlock mode = [Ev.print "error no mode"]) ∧
    ((init mode s busy).1.init_performed = true) ∧
    ((init mode s busy).2.2 = (init 0 s busy).2.2) ∧
    (display_frame convert1 convertL lutA2 lut4 imw imh pix mode s busy
      = (let r1 := if s.init_performed then (s, ([] : List Ev), busy) else init 0 s busy
         (r1.1, r1.2.1 ++ [Ev.print "error no mode"], r1.2.2))) := by
  refine ⟨by simp [initModeBlock, h0, h1], rfl, rfl, ?_⟩
  simp [display_frame, h0, h1]

theorem C6_invalid_mode_prints_and_completes_witness :
    ((initModeBlock 2 = [Ev.print "error no mode"]) ∧
    ((init 2 sReady [0, 0]).1.init_performed = true) ∧
    ((init 2 sReady [0, 0]).2.2 = (init 0 sReady [0, 0]).2.2) ∧
    (display_frame (fun p => p) (fun p => p) [] [] 8 1 (fun _ _ => 255) 2 sReady [0]
      = (let r1 := if sReady.init_performed then (sReady, ([] : List Ev), [0])
           else init 0 sReady [0]
         (r1.1, r1.2.1 ++ [Ev.print "error no mode"], r1.2.2)))) :=
  C6_invalid_mode_prints_and_completes (fun p => p) (fun p => p) [] [] 8 1 (fun _ _ => 255)
    2 sReady [0] (by omega) (by omega)
